import Mathlib

/-!
# Verification of the logic-tree core of `openquake/commonlib/logictree.py`

This file is a shallow embedding, in Lean 4, of the logic-tree data model,
construction state machine, enumeration and sampling algorithms of
`src/openquake/commonlib/logictree.py`, together with proofs about them.

Modelling conventions:

* Python `Decimal` weights are modelled as `ℚ`.  All weight arithmetic
  performed by the code (sums of branch weights, products along paths) is
  exact at the magnitudes involved, so `ℚ` is a faithful model.
* Exceptions (`ValidationError`, `AssertionError`) are modelled with
  `Except` / `Option`: a raised exception is an `Except.error` (resp.
  `Option.none`) result.
* The mutable `Branch.child_branchset` links are modelled by building the
  final linked structure as an inductive tree (`Branch` / `BranchSet`), and
  the construction phase (`BaseLogicTree.parse_tree` and friends) as a pure
  fold over the input document that records the same information (the
  `child` map of a `ConstrState`) from which the linked tree is rebuilt by
  `extractTree`.
* `random.Random(seed).random()` is modelled as a seed-indexed stream of
  rational draws threaded by an explicit counter.
-/

/-! ## The linked tree: `Branch` and `BranchSet` objects

`Branch` mirrors the `Branch` class (`branch_id`, `weight`, `value`,
`child_branchset`); the uncertainty `value` is kept as its raw text, since
none of the verified properties depend on the variant-specific parsed
payload.  `BranchSet` keeps the ordered list of its branches; the
`uncertainty_type` and `filters` attributes play no role in enumeration or
sampling and live only on the document nodes (`BranchSetNode` below). -/

mutual

inductive Branch : Type where
  | mk : String → ℚ → String → Option BranchSet → Branch

inductive BranchSet : Type where
  | mk : List Branch → BranchSet

end

def Branch.branch_id : Branch → String
  | .mk i _ _ _ => i

def Branch.weight : Branch → ℚ
  | .mk _ w _ _ => w

def Branch.value : Branch → String
  | .mk _ _ v _ => v

def Branch.child_branchset : Branch → Option BranchSet
  | .mk _ _ _ c => c

def BranchSet.branches : BranchSet → List Branch
  | .mk l => l

/-! ## Exhaustive enumeration: `BranchSet.enumerate_paths`

The Python generator yields, for every root-to-leaf path, the pair
(product of the branch weights on the path, list of the path's branches).
We record the path as its list of branch ids (the only attribute the
callers use, see `BaseLogicTree.__iter__`), in the same depth-first order
in which the generator yields. -/

mutual

def BranchSet.enumerate_paths : BranchSet → List (ℚ × List String)
  | .mk l => enumBranchList l

def enumBranchList : List Branch → List (ℚ × List String)
  | [] => []
  | b :: bs => enumBranch b ++ enumBranchList bs

def enumBranch : Branch → List (ℚ × List String)
  | .mk i w _ none => [(w, [i])]
  | .mk i w _ (some cbs) =>
      (BranchSet.enumerate_paths cbs).map (fun qp => (w * qp.1, i :: qp.2))

end

/-! ## Random sampling: `sample_one` and `BaseLogicTree.sample_path` -/

/-- The accumulator loop of `sample_one`: walk the branches in declared
order, adding up weights, and return the first branch at which the
accumulated weight is `>=` the dice roll `d`.  Falling off the end is the
`AssertionError` branch, modelled as `none`. -/
def sampleOneGo (d : ℚ) : List Branch → ℚ → Option Branch
  | [], _ => none
  | b :: bs, acc =>
    let acc' := acc + b.weight
    if d ≤ acc' then some b else sampleOneGo d bs acc'

/-- `sample_one(branches, rnd)` with the dice roll `d = rnd.random()`
made explicit. -/
def sample_one (branches : List Branch) (d : ℚ) : Option Branch :=
  sampleOneGo d branches 0

theorem sampleOneGo_mem {d : ℚ} :
    ∀ {bs : List Branch} {acc : ℚ} {b : Branch},
      sampleOneGo d bs acc = some b → b ∈ bs := by
  intro bs
  induction bs with
  | nil => intro acc b h; simp [sampleOneGo] at h
  | cons x xs ih =>
    intro acc b h
    simp only [sampleOneGo] at h
    split at h
    · cases h; exact List.mem_cons_self x xs
    · exact List.mem_cons_of_mem x (ih h)

theorem sample_one_mem {branches : List Branch} {d : ℚ} {b : Branch}
    (h : sample_one branches d = some b) : b ∈ branches :=
  sampleOneGo_mem h

theorem sizeOf_branches_lt (bs : BranchSet) : sizeOf bs.branches < sizeOf bs := by
  cases bs with
  | mk l => simp [BranchSet.branches]

theorem sizeOf_child_lt {b : Branch} {cbs : BranchSet}
    (h : b.child_branchset = some cbs) : sizeOf cbs < sizeOf b := by
  cases b with
  | mk i w v c =>
    cases c with
    | none => simp [Branch.child_branchset] at h
    | some cbs' =>
      simp only [Branch.child_branchset, Option.some.injEq] at h
      subst h
      simp
      omega

/-- The loop of `BaseLogicTree.sample_path`: starting from a branchset,
draw (consuming `draws i`, then `draws (i+1)`, ...), append the chosen
branch id, and descend into its child branchset until reaching a leaf.
Returns the list of branch ids together with the next unused draw index;
`none` models the `AssertionError` raised by `sample_one`. -/
def BranchSet.sample_walk (draws : Nat → ℚ) (bs : BranchSet) (i : Nat) :
    Option (List String × Nat) :=
  match h : sample_one bs.branches (draws i) with
  | none => none
  | some b =>
    match hc : b.child_branchset with
    | none => some ([b.branch_id], i + 1)
    | some cbs =>
      match BranchSet.sample_walk draws cbs (i + 1) with
      | none => none
      | some (p, j) => some (b.branch_id :: p, j)
termination_by sizeOf bs
decreasing_by
  have h1 : sizeOf b < sizeOf bs.branches :=
    List.sizeOf_lt_of_mem (sample_one_mem h)
  have h2 : sizeOf cbs < sizeOf b := sizeOf_child_lt hc
  have h3 := sizeOf_branches_lt bs
  omega

/-- `BranchSet.get_branch_by_id`: linear scan for the branch with the given
id; the `AssertionError` for a missing id is modelled as `none`. -/
def BranchSet.get_branch_by_id (bs : BranchSet) (branch_id : String) :
    Option Branch :=
  bs.branches.find? (fun b => b.branch_id = branch_id)

/-- `BaseLogicTree.sample_path`: returns the model name (the value of the
root-level branch of the sampled path) and the list of branch ids, plus
the next unused draw index. -/
def sample_path (draws : Nat → ℚ) (root : BranchSet) (i : Nat) :
    Option ((String × List String) × Nat) :=
  match BranchSet.sample_walk draws root i with
  | none => none
  | some (ids, j) =>
    match ids with
    | [] => none
    | id0 :: _ =>
      match root.get_branch_by_id id0 with
      | none => none
      | some b => some ((b.value, ids), j)

/-- The sampling branch of `BaseLogicTree.__iter__`: `num_samples`
successive calls to `sample_path` sharing one generator (the draw counter
is threaded from one sample to the next). -/
def iterSamples (draws : Nat → ℚ) (root : BranchSet) :
    Nat → Nat → Option (List (String × List String))
  | 0, _ => some []
  | n + 1, i =>
    match sample_path draws root i with
    | none => none
    | some (r, j) =>
      match iterSamples draws root n j with
      | none => none
      | some rest => some (r :: rest)

/-- `BaseLogicTree.__iter__` in sampling mode (`num_samples ≠ 0`): a fresh
generator is created from the stored seed (`rnd = random.Random(self.seed)`)
at the start of every iteration, modelled by restarting the seed-indexed
draw stream `g seed` at counter 0. -/
def lt_iter_sample (g : Int → Nat → ℚ) (seed : Int) (num_samples : Nat)
    (root : BranchSet) : Option (List (String × List String)) :=
  iterSamples (g seed) root num_samples 0

/-! ### Unconditional unfolding lemmas for `BranchSet.sample_walk` -/

theorem sample_walk_none {draws : Nat → ℚ} {bs : BranchSet} {i : Nat}
    (h : sample_one bs.branches (draws i) = none) :
    BranchSet.sample_walk draws bs i = none := by
  rw [BranchSet.sample_walk]
  split
  · rfl
  · simp_all

theorem sample_walk_leaf {draws : Nat → ℚ} {bs : BranchSet} {i : Nat} {b : Branch}
    (h : sample_one bs.branches (draws i) = some b)
    (hc : b.child_branchset = none) :
    BranchSet.sample_walk draws bs i = some ([b.branch_id], i + 1) := by
  rw [BranchSet.sample_walk]
  split
  · simp_all
  · rename_i b' h'
    rw [h'] at h
    cases h
    split
    · rfl
    · simp_all

theorem sample_walk_node {draws : Nat → ℚ} {bs : BranchSet} {i : Nat} {b : Branch}
    {cbs : BranchSet}
    (h : sample_one bs.branches (draws i) = some b)
    (hc : b.child_branchset = some cbs) :
    BranchSet.sample_walk draws bs i =
      match BranchSet.sample_walk draws cbs (i + 1) with
      | none => none
      | some (p, j) => some (b.branch_id :: p, j) := by
  rw [BranchSet.sample_walk]
  split
  · simp_all
  · rename_i b' h'
    rw [h'] at h
    cases h
    split
    · simp_all
    · rename_i cbs' hc'
      rw [hc'] at hc
      cases hc
      rfl

/-! ## The cumulative-weight walk, stated the way the spec describes it

`chosen_branch branches d` is the branch at the first index `i` (in
declared order) at which the running cumulative sum of the branch weights
`weights[0] + ... + weights[i]` becomes `≥ d`.  This is the spec-side
description of one random draw; `sample_one` is proved to coincide with
it. -/

/-- Cumulative weight of the first `i + 1` branches. -/
def cumWeight (branches : List Branch) (i : Nat) : ℚ :=
  ((branches.take (i + 1)).map Branch.weight).sum

/-- First index at which the running cumulative weight reaches the draw. -/
def chosen_index (branches : List Branch) (d : ℚ) : Option Nat :=
  (List.range branches.length).find? (fun i => decide (d ≤ cumWeight branches i))

/-- The branch selected by the cumulative-weight walk, per the spec. -/
def chosen_branch (branches : List Branch) (d : ℚ) : Option Branch :=
  (chosen_index branches d).bind (fun i => branches.get? i)

theorem cumWeight_cons_zero (b : Branch) (rest : List Branch) :
    cumWeight (b :: rest) 0 = b.weight := by
  simp [cumWeight]

theorem cumWeight_cons_succ (b : Branch) (rest : List Branch) (i : Nat) :
    cumWeight (b :: rest) (i + 1) = b.weight + cumWeight rest i := by
  simp [cumWeight, List.take_succ_cons]

theorem findQ_congr {α : Type} {p q : α → Bool} :
    ∀ {l : List α}, (∀ a ∈ l, p a = q a) → l.find? p = l.find? q := by
  intro l
  induction l with
  | nil => intro _; rfl
  | cons x xs ih =>
    intro h
    rw [List.find?_cons, List.find?_cons, h x (List.mem_cons_self x xs)]
    cases q x with
    | true => rfl
    | false => exact ih (fun a ha => h a (List.mem_cons_of_mem x ha))

/-- `sample_one`'s accumulator loop computes exactly the spec-side
cumulative-weight choice, with the accumulator shifting the draw. -/
theorem sampleOneGo_eq_chosen_branch (d : ℚ) :
    ∀ (bs : List Branch) (acc : ℚ),
      sampleOneGo d bs acc = chosen_branch bs (d - acc) := by
  intro bs
  induction bs with
  | nil =>
    intro acc
    simp [sampleOneGo, chosen_branch, chosen_index]
  | cons b rest ih =>
    intro acc
    simp only [sampleOneGo]
    rw [chosen_branch, chosen_index]
    simp only [List.length_cons, List.range_succ_eq_map, List.find?_cons]
    by_cases hd : d ≤ acc + b.weight
    · have : decide (d - acc ≤ cumWeight (b :: rest) 0) = true := by
        rw [cumWeight_cons_zero]
        simp only [decide_eq_true_eq]
        linarith
      rw [this]
      simp [hd]
    · have : decide (d - acc ≤ cumWeight (b :: rest) 0) = false := by
        rw [cumWeight_cons_zero]
        simp only [decide_eq_false_iff_not]
        intro hcon
        exact hd (by linarith)
      rw [this]
      simp only [if_neg hd]
      rw [ih (acc + b.weight), chosen_branch, chosen_index]
      rw [List.find?_map]
      have harg : ∀ i : Nat,
          decide (d - acc ≤ cumWeight (b :: rest) (i + 1)) =
          decide (d - (acc + b.weight) ≤ cumWeight rest i) := by
        intro i
        rw [cumWeight_cons_succ]
        by_cases hle : d - (acc + b.weight) ≤ cumWeight rest i
        · rw [decide_eq_true (by linarith), decide_eq_true hle]
        · rw [decide_eq_false (by intro hcon; exact hle (by linarith)),
            decide_eq_false hle]
      have hfind :
          (List.range rest.length).find?
              ((fun i => decide (d - acc ≤ cumWeight (b :: rest) i)) ∘ (· + 1)) =
          (List.range rest.length).find?
              (fun i => decide (d - (acc + b.weight) ≤ cumWeight rest i)) := by
        apply findQ_congr
        intro i _
        exact harg i
      rw [hfind]
      cases hfr : (List.range rest.length).find?
          (fun i => decide (d - (acc + b.weight) ≤ cumWeight rest i)) with
      | none => simp
      | some idx => simp

theorem sample_one_eq_chosen_branch (branches : List Branch) (d : ℚ) :
    sample_one branches d = chosen_branch branches d := by
  rw [sample_one, sampleOneGo_eq_chosen_branch]
  norm_num

/-- The walk performed by `sample_path`, stated the way the spec describes
it: at each branchset the branch at the first position where the running
cumulative weight reaches the draw is selected, and the walk descends into
that branch's child branchset until reaching a leaf. -/
inductive IsSampledPath (draws : Nat → ℚ) : BranchSet → Nat → List String → Prop where
  | leaf (branches : List Branch) (i : Nat) (b : Branch)
      (hch : chosen_branch branches (draws i) = some b)
      (hc : b.child_branchset = none) :
      IsSampledPath draws (BranchSet.mk branches) i [b.branch_id]
  | node (branches : List Branch) (i : Nat) (b : Branch) (cbs : BranchSet)
      (p : List String)
      (hch : chosen_branch branches (draws i) = some b)
      (hc : b.child_branchset = some cbs)
      (hp : IsSampledPath draws cbs (i + 1) p) :
      IsSampledPath draws (BranchSet.mk branches) i (b.branch_id :: p)

theorem one_le_sizeOf_branchSet (bs : BranchSet) : 1 ≤ sizeOf bs := by
  cases bs with
  | mk l => simp

theorem sample_walk_isSampledPath_aux :
    ∀ (n : Nat) (bs : BranchSet), sizeOf bs ≤ n →
      ∀ (draws : Nat → ℚ) (i : Nat) (p : List String) (j : Nat),
        BranchSet.sample_walk draws bs i = some (p, j) →
        IsSampledPath draws bs i p := by
  intro n
  induction n with
  | zero =>
    intro bs hbs
    exact absurd hbs (by have := one_le_sizeOf_branchSet bs; omega)
  | succ n ih =>
    intro bs hbs draws i p j hw
    cases hso : sample_one bs.branches (draws i) with
    | none => rw [sample_walk_none hso] at hw; cases hw
    | some b =>
      cases hc : b.child_branchset with
      | none =>
        rw [sample_walk_leaf hso hc] at hw
        cases hw
        cases bs with
        | mk l =>
          exact IsSampledPath.leaf l i b
            (by rw [← sample_one_eq_chosen_branch]; exact hso) hc
      | some cbs =>
        rw [sample_walk_node hso hc] at hw
        cases hrec : BranchSet.sample_walk draws cbs (i + 1) with
        | none => rw [hrec] at hw; cases hw
        | some pj =>
          rw [hrec] at hw
          cases pj with
          | mk p' j' =>
            simp only [Option.some.injEq, Prod.mk.injEq] at hw
            have hsz : sizeOf cbs ≤ n := by
              have h1 : sizeOf b < sizeOf bs.branches :=
                List.sizeOf_lt_of_mem (sample_one_mem hso)
              have h2 : sizeOf cbs < sizeOf b := sizeOf_child_lt hc
              have h3 := sizeOf_branches_lt bs
              omega
            have hrecPath := ih cbs hsz draws (i + 1) p' j' hrec
            cases bs with
            | mk l =>
              rw [← hw.1]
              exact IsSampledPath.node l i b cbs p'
                (by rw [← sample_one_eq_chosen_branch]; exact hso) hc hrecPath

/-! ## The input document and the construction engine

`BranchNode` / `BranchSetNode` model the parsed XML elements
`<logicTreeBranch>` / `<logicTreeBranchSet>` handed to
`BaseLogicTree.parse_branchinglevel`: a branch node carries its
`branchID`, its decimal weight (already converted, the `Decimal(...)`
conversion itself is outside the model) and the raw `<uncertaintyModel>`
text; a branchset node carries its `uncertaintyType`, its filter
attributes, its optional (already split) `applyToBranches` attribute and
its ordered branch nodes.  A document is the ordered list of
`<logicTreeBranchingLevel>` elements, each an ordered list of branchset
nodes. -/

structure BranchNode where
  branch_id : String
  weight : ℚ
  value : String
  deriving DecidableEq, Repr

structure BranchSetNode where
  uncertainty_type : String
  filters : List (String × String)
  apply_to_branches : Option (List String)
  branches : List BranchNode
  deriving DecidableEq, Repr

/-- One `<logicTreeBranchingLevel>`. -/
abbrev LevelNode := List BranchSetNode

/-- The `<logicTree>` element: its ordered branching levels. -/
abbrev TreeDoc := List LevelNode

/-- Construction-time errors.  Every constructor models a
`ValidationError` raised somewhere in `BaseLogicTree` or a subclass; the
`hookError` constructor stands for the `ValidationError`s raised inside
the variant-specific validation hooks. -/
inductive LtError where
  | duplicateBranchId : String → LtError
  | weightSumNotOne : LtError
  | branchNotDefined : String → LtError
  | alreadyHasChild : String → LtError
  | notOpenEnd : LtError
  | missingTrts : List String → LtError
  | hookError : String → LtError
  deriving DecidableEq, Repr

/-- The variant-specific hooks of `BaseLogicTree` (abstract methods plus
the overridable `skip_branchset_condition`), with the variant's own
mutable attributes (e.g. `GMPELogicTree.defined_tectonic_region_types`)
as an explicit state `σ` threaded through the hooks that update it.
`parse_filters` / `parse_uncertainty_value` only transform payloads that
the verified properties never inspect, so they are not modelled. -/
structure Hooks (σ : Type) where
  skip_branchset_condition : BranchSetNode → Bool
  validate_filters : σ → BranchSetNode → Except LtError σ
  validate_uncertainty_value : σ → BranchSetNode → BranchNode → Except LtError σ
  validate_branchset : σ → Nat → Nat → BranchSetNode → Except LtError Unit
  validate_tree : σ → List String → Except LtError Unit

/-- The engine's own mutable state during `parse_tree`:
`branchIds` are the keys of `self.branches` in insertion order;
`bsets` records every constructed `BranchSet` in construction order;
`root` is the index (into `bsets`) of `self.root_branchset`;
`child` maps a branch id to the index of the branchset stored in that
branch's `child_branchset` attribute (absent = `None`);
`open_ends` models `self.open_ends` (branch ids). -/
structure ConstrState where
  branchIds : List String
  bsets : List BranchSetNode
  root : Option Nat
  child : List (String × Nat)
  open_ends : List String
  deriving DecidableEq, Repr

def initConstrState : ConstrState :=
  { branchIds := [], bsets := [], root := none, child := [], open_ends := [] }

/-- Error-propagating left fold, the model of Python `for` loops whose
body can raise. -/
def foldE {σ α ε : Type} (f : σ → α → Except ε σ) : σ → List α → Except ε σ
  | s, [] => .ok s
  | s, a :: l =>
    match f s a with
    | .error e => .error e
    | .ok s' => foldE f s' l

def childLookup (m : List (String × Nat)) (id : String) : Option Nat :=
  (m.find? (fun p => p.1 = id)).map (fun p => p.2)

/-- Assignment `branch.child_branchset = branchset` on the child map:
overwrite an existing entry, otherwise append. -/
def childSet (m : List (String × Nat)) (id : String) (k : Nat) :
    List (String × Nat) :=
  if (childLookup m id).isSome then
    m.map (fun p => if p.1 = id then (id, k) else p)
  else
    m ++ [(id, k)]

/-- The body of the branch loop of `BaseLogicTree.parse_branches`: add the
weight to the running sum, validate the uncertainty value (only when
`validate` is set), check the branch id against all ids seen so far
(raising `ValidationError` on a duplicate), and record the branch. -/
def branch_loop_step {σ : Type} (hooks : Hooks σ) (validate : Bool)
    (bsn : BranchSetNode) (acc : σ × List String × ℚ) (bn : BranchNode) :
    Except LtError (σ × List String × ℚ) :=
  let wsum := acc.2.2 + bn.weight
  match (if validate then hooks.validate_uncertainty_value acc.1 bsn bn
         else .ok acc.1) with
  | .error e => .error e
  | .ok vst =>
    if acc.2.1.contains bn.branch_id then
      .error (.duplicateBranchId bn.branch_id)
    else
      .ok (vst, acc.2.1 ++ [bn.branch_id], wsum)

/-- `BaseLogicTree.parse_branches`: parse all branch nodes of a branchset
node, then raise `ValidationError` if the weights do not sum to exactly 1.
Both the duplicate-id check and the weight-sum check run regardless of
`validate`. -/
def parse_branches {σ : Type} (hooks : Hooks σ) (validate : Bool)
    (bsn : BranchSetNode) (vst : σ) (ids : List String) :
    Except LtError (σ × List String) :=
  match foldE (branch_loop_step hooks validate bsn) (vst, ids, 0) bsn.branches with
  | .error e => .error e
  | .ok (vst, ids, wsum) =>
    if wsum ≠ 1 then .error .weightSumNotOne else .ok (vst, ids)

/-- `BaseLogicTree.parse_branchset`: filter validation and branchset
validation, both only when `validate` is set (`parse_filters` merely
transforms filter payloads and is not modelled). -/
def parse_branchset {σ : Type} (hooks : Hooks σ) (validate : Bool)
    (depth number : Nat) (bsn : BranchSetNode) (vst : σ) :
    Except LtError σ :=
  match (if validate then hooks.validate_filters vst bsn else .ok vst) with
  | .error e => .error e
  | .ok vst =>
    match (if validate then hooks.validate_branchset vst depth number bsn
           else .ok ()) with
    | .error e => .error e
    | .ok _ => .ok vst

/-- One step of `SourceModelLogicTree.apply_branchset`'s `applyToBranches`
loop: the referenced branch must exist, must not already have a child
branchset and must be an open end of the previous level; then the new
branchset (index `k`) becomes its child. -/
def apply_to_step (k : Nat) (st : ConstrState) (bid : String) :
    Except LtError ConstrState :=
  if ¬ st.branchIds.contains bid then .error (.branchNotDefined bid)
  else if (childLookup st.child bid).isSome then .error (.alreadyHasChild bid)
  else if ¬ st.open_ends.contains bid then .error .notOpenEnd
  else .ok { st with child := childSet st.child bid k }

/-- `apply_branchset` in the form used by the concrete trees: with an
`applyToBranches` attribute (`SourceModelLogicTree.apply_branchset`) the
branchset is attached selectively after the three validity checks; without
one, the base `BaseLogicTree.apply_branchset` attaches it to every open
end. -/
def apply_branchset (st : ConstrState) (k : Nat) (bsn : BranchSetNode) :
    Except LtError ConstrState :=
  match bsn.apply_to_branches with
  | some ids => foldE (apply_to_step k) st ids
  | none =>
    .ok { st with child := st.open_ends.foldl (fun m id => childSet m id k) st.child }

/-- The body of the branchset loop of `BaseLogicTree.parse_branchinglevel`:
skip when `skip_branchset_condition` holds, otherwise parse the branchset
and its branches, make it the root if no root exists yet or attach it via
`apply_branchset`, and add its branches to the new open ends. -/
def level_step {σ : Type} (hooks : Hooks σ) (validate : Bool) (depth : Nat)
    (acc : σ × ConstrState × List String × Nat) (bsn : BranchSetNode) :
    Except LtError (σ × ConstrState × List String × Nat) :=
  let vst := acc.1
  let st := acc.2.1
  let noe := acc.2.2.1
  let number := acc.2.2.2
  if hooks.skip_branchset_condition bsn then
    .ok (vst, st, noe, number + 1)
  else
    match parse_branchset hooks validate depth number bsn vst with
    | .error e => .error e
    | .ok vst =>
      match parse_branches hooks validate bsn vst st.branchIds with
      | .error e => .error e
      | .ok (vst, ids) =>
        let k := st.bsets.length
        let st1 : ConstrState :=
          { st with branchIds := ids, bsets := st.bsets ++ [bsn] }
        match (if st1.root = none then .ok { st1 with root := some k }
               else apply_branchset st1 k bsn) with
        | .error e => .error e
        | .ok st2 =>
          .ok (vst, st2, noe ++ bsn.branches.map (fun b => b.branch_id),
            number + 1)

/-- `BaseLogicTree.parse_branchinglevel`: process the level's branchsets in
order, then replace `open_ends` with the branches of the branchsets
attached at this level. -/
def parse_branchinglevel {σ : Type} (hooks : Hooks σ) (validate : Bool)
    (depth : Nat) (vst : σ) (st : ConstrState) (lvl : LevelNode) :
    Except LtError (σ × ConstrState) :=
  match foldE (level_step hooks validate depth) (vst, st, [], 0) lvl with
  | .error e => .error e
  | .ok (vst, st, noe, _) => .ok (vst, { st with open_ends := noe })

/-- The branching-level loop of `BaseLogicTree.parse_tree` (`depth` is the
running `enumerate` index). -/
def tree_level_step {σ : Type} (hooks : Hooks σ) (validate : Bool)
    (acc : σ × ConstrState × Nat) (lvl : LevelNode) :
    Except LtError (σ × ConstrState × Nat) :=
  match parse_branchinglevel hooks validate acc.2.2 acc.1 acc.2.1 lvl with
  | .error e => .error e
  | .ok (vst, st) => .ok (vst, st, acc.2.2 + 1)

/-- `BaseLogicTree.parse_tree` (as called from `__init__` with the empty
initial state): parse every branching level in document order, then run
the whole-tree validation hook when `validate` is set.  The hook receives
the variant state and the collected branch ids. -/
def parse_tree {σ : Type} (hooks : Hooks σ) (validate : Bool) (vst0 : σ)
    (doc : TreeDoc) : Except LtError (σ × ConstrState) :=
  match foldE (tree_level_step hooks validate) (vst0, initConstrState, 0) doc with
  | .error e => .error e
  | .ok (vst, st, _) =>
    match (if validate then hooks.validate_tree vst st.branchIds else .ok ()) with
    | .error e => .error e
    | .ok _ => .ok (vst, st)

/-! ## Rebuilding the linked tree from the construction state

In Python the links are created by mutating `Branch.child_branchset`
during parsing; `ConstrState.child` records exactly those links, so the
linked object graph that the tree's consumers (`enumerate_paths`,
`sample_path`) see is rebuilt from the state.  Children are always
branchsets constructed later, so `bsets.length` is enough fuel. -/

def buildBranches (f : Nat → Option BranchSet) (child : List (String × Nat)) :
    List BranchNode → Option (List Branch)
  | [] => some []
  | bn :: rest =>
    match buildBranches f child rest with
    | none => none
    | some tail =>
      match childLookup child bn.branch_id with
      | none => some (Branch.mk bn.branch_id bn.weight bn.value none :: tail)
      | some j =>
        match f j with
        | none => none
        | some cbs =>
          some (Branch.mk bn.branch_id bn.weight bn.value (some cbs) :: tail)

def buildTree (st : ConstrState) : Nat → Nat → Option BranchSet
  | 0, _ => none
  | fuel + 1, k =>
    match st.bsets.get? k with
    | none => none
    | some bsn =>
      match buildBranches (buildTree st fuel) st.child bsn.branches with
      | none => none
      | some l => some (BranchSet.mk l)

/-- The linked tree reachable from `self.root_branchset` after
construction. -/
def extractTree (st : ConstrState) : Option BranchSet :=
  match st.root with
  | none => none
  | some r => buildTree st (st.bsets.length) r

/-! ## Chain-shaped trees

The linked tree produced by a document whose levels each hold exactly one
branchset applied to all open ends: every branch of level `k` has the
(unique) branchset of level `k + 1` as its child. -/

def chain_tree (bsn : BranchSetNode) : List BranchSetNode → BranchSet
  | [] =>
    BranchSet.mk (bsn.branches.map
      (fun bn => Branch.mk bn.branch_id bn.weight bn.value none))
  | r :: rs =>
    BranchSet.mk (bsn.branches.map
      (fun bn => Branch.mk bn.branch_id bn.weight bn.value (some (chain_tree r rs))))

/-! ## The `GMPELogicTree` hooks

Variant state `σ = List String`: the contents of
`self.defined_tectonic_region_types` in insertion order.  `known` models
the constructor argument `tectonic_region_types` (the region types of the
paired source-model tree) and `gsims` the keys of the `GSIM` registry. -/

def trtOf (bsn : BranchSetNode) : Option String :=
  (bsn.filters.find? (fun p => p.1 = "applyToTectonicRegionType")).map
    (fun p => p.2)

/-- `GMPELogicTree.skip_branchset_condition`: skip branchsets whose
declared tectonic region type is not a known one.  (The Python code
unconditionally indexes `attrs['applyToTectonicRegionType']`; the
schema guarantees the attribute, and the model only evaluates this on
documents whose branchsets carry it.) -/
def gmpeSkip (known : List String) (bsn : BranchSetNode) : Bool :=
  match trtOf bsn with
  | some trt => ¬ known.contains trt
  | none => false

/-- `GMPELogicTree.validate_filters`: exactly the one filter
`applyToTectonicRegionType` is allowed, its value must be a known region
type and must not have been used by an earlier branchset; the value is
then recorded in `defined_tectonic_region_types`. -/
def gmpeValidateFilters (known : List String) (defined : List String)
    (bsn : BranchSetNode) : Except LtError (List String) :=
  match bsn.filters with
  | [(fname, trt)] =>
    if fname ≠ "applyToTectonicRegionType" then
      .error (.hookError "branch sets in gmpe logic tree must define only applyToTectonicRegionType filter")
    else if ¬ known.contains trt then
      .error (.hookError "source models do not define sources of this tectonic region type")
    else if defined.contains trt then
      .error (.hookError "gmpe uncertainty for tectonic region type has already been defined")
    else
      .ok (defined ++ [trt])
  | _ =>
    .error (.hookError "branch sets in gmpe logic tree must define only applyToTectonicRegionType filter")

/-- `GMPELogicTree.validate_branchset`: only `gmpeModel` uncertainties,
one branchset per branching level. -/
def gmpeValidateBranchset (number : Nat) (bsn : BranchSetNode) :
    Except LtError Unit :=
  if bsn.uncertainty_type ≠ "gmpeModel" then
    .error (.hookError "only uncertainties of type gmpeModel are allowed in gmpe logic tree")
  else if number ≠ 0 then
    .error (.hookError "only one branchset on each branching level is allowed in gmpe logic tree")
  else
    .ok ()

/-- The region types known from the source models but not covered by any
branchset: `frozenset(known) - set(defined)`, reported sorted. -/
def missing_trts (known defined : List String) : List String :=
  (known.filter (fun t => ¬ defined.contains t)).dedup

/-- `GMPELogicTree.validate_tree`: raise naming the (sorted) missing
region types if any known type has no branchset. -/
def gmpeValidateTree (known defined : List String) : Except LtError Unit :=
  if missing_trts known defined = [] then .ok ()
  else .error (.missingTrts ((missing_trts known defined).insertionSort (· ≤ ·)))

/-- All `GMPELogicTree` hooks bundled for the engine. -/
def gmpeHooks (known gsims : List String) : Hooks (List String) :=
  { skip_branchset_condition := gmpeSkip known
  , validate_filters := gmpeValidateFilters known
  , validate_uncertainty_value := fun defined _ bn =>
      if gsims.contains bn.value then .ok defined
      else .error (.hookError "unknown class; available classes are listed")
  , validate_branchset := fun _ _ number bsn => gmpeValidateBranchset number bsn
  , validate_tree := fun defined _ => gmpeValidateTree known defined }

/-! ## The flat `GsimLogicTree`

`GBranch` models a `BranchTuple`; `bsetIdx` stands for the identity of
the `bset` node object (`itertools.groupby` groups by object, so two
textually equal branchsets stay distinct), `bsetID` for
`bset['branchSetID']`. -/

structure GBranch where
  bsetIdx : Nat
  bsetID : String
  fkey : String
  id : String
  uncertainty : String
  weight : ℚ
  deriving DecidableEq, Repr

/-- `BranchTuple.__lt__`: `self.bset['branchSetID'] < other.bset['branchSetID']
and self.id < other.id` (note the `and`: this is not a total order). -/
def btLt (a b : GBranch) : Bool :=
  decide (a.bsetID < b.bsetID) && decide (a.id < b.id)

def insertSorted {α : Type} (lt : α → α → Bool) (x : α) : List α → List α
  | [] => [x]
  | y :: ys => if lt x y then x :: y :: ys else y :: insertSorted lt x ys

/-- Model of Python `sorted` with only `<` comparisons (a stable binary
insertion sort).  It agrees with CPython's timsort on every list with no
inversion under `lt` (both return the input unchanged) and on lists of at
most two elements, the two regimes in which it is used below. -/
def pySorted {α : Type} (lt : α → α → Bool) (l : List α) : List α :=
  l.foldl (fun acc x => insertSorted lt x acc) []

/-- `itertools.groupby`: split into maximal runs of consecutive elements
with the same key (here: coming from the same branchset object). -/
def groupConsec : List GBranch → List (List GBranch)
  | [] => []
  | [x] => [[x]]
  | x :: y :: rest =>
    match groupConsec (y :: rest) with
    | [] => [[x]]
    | g :: gs =>
      if x.bsetIdx = y.bsetIdx then (x :: g) :: gs else [x] :: g :: gs

/-- `itertools.product(*groups)`: all ways of picking one element per
group, rightmost group varying fastest. -/
def productGroups : List (List GBranch) → List (List GBranch)
  | [] => [[]]
  | g :: gs => (g.map (fun x => (productGroups gs).map (fun c => x :: c))).flatten

/-- An `LtRealization` of the flat GSIM tree: `value` is the
`{trt: gsim}` mapping in group order, `weight` the product of the chosen
branches' weights, `lt_path` the tuple of branch ids. -/
structure GsimRealization where
  value : List (String × String)
  weight : ℚ
  lt_path : List String
  deriving DecidableEq, Repr

def mkGsimRealization (c : List GBranch) : GsimRealization :=
  { value := c.map (fun b => (b.fkey, b.uncertainty))
  , weight := (c.map (fun b => b.weight)).foldl (fun w x => w * x) 1
  , lt_path := c.map (fun b => b.id) }

/-- `GsimLogicTree.__iter__` as a function of `self.branches` (the parsed
branch tuples already sorted at `__init__` time, see `gsimBranches`). -/
def gsim_iter (branches_sorted : List GBranch) : List GsimRealization :=
  (productGroups (groupConsec branches_sorted)).map mkGsimRealization

/-- `self.branches = sorted(self._parse_lt())`, as a function of the
document-ordered output of `_parse_lt`. -/
def gsimBranches (parsed : List GBranch) : List GBranch :=
  pySorted btLt parsed

/-- Python dict assignment: overwrite in place or append. -/
def dictInsert (m : List (String × Nat)) (k : String) (v : Nat) :
    List (String × Nat) :=
  if (m.find? (fun p => p.1 = k)).isSome then
    m.map (fun p => if p.1 = k then (k, v) else p)
  else
    m ++ [(k, v)]

/-- `GsimLogicTree.get_num_branches`: branch count per branchset id (a
dict keyed by `branchSetID`). -/
def get_num_branches (branches_sorted : List GBranch) : List (String × Nat) :=
  (groupConsec branches_sorted).foldl
    (fun m g => dictInsert m (match g with | [] => "" | x :: _ => x.bsetID) g.length)
    []

/-- `GsimLogicTree.get_num_paths`: the product of the per-branchset branch
counts. -/
def get_num_paths (branches_sorted : List GBranch) : Nat :=
  (get_num_branches branches_sorted).foldl (fun n p => n * p.2) 1

/-- Modelled from the spec: "Iteration produces every combination via the
cartesian product of the per-region branch groups (groups ordered by first
appearance), each combination's weight the product of its branches'
weights."  Identical to `gsim_iter` except that the groups are taken in
document order (order of first appearance in `_parse_lt`'s output) instead
of the order produced by `sorted`. -/
def specFirstAppearanceIter (parsed : List GBranch) : List GsimRealization :=
  (productGroups (groupConsec parsed)).map mkGsimRealization

/-! ## Total weight of the enumerated paths (C1) -/

/-! `BranchSet.wfWeights bs`: every branchset reachable from `bs`
(including `bs` itself) has branch weights summing to exactly 1.  This is
the invariant `parse_branches` enforces on every branchset of a
successfully constructed tree. -/

mutual

def BranchSet.wfWeights : BranchSet → Bool
  | .mk l => decide ((l.map Branch.weight).sum = 1) && branchListWf l

def branchListWf : List Branch → Bool
  | [] => true
  | b :: bs => Branch.wfWeights b && branchListWf bs

def Branch.wfWeights : Branch → Bool
  | .mk _ _ _ none => true
  | .mk _ _ _ (some cbs) => BranchSet.wfWeights cbs

end

theorem sizeOf_branchSet_mk (l : List Branch) :
    sizeOf (BranchSet.mk l) = 1 + sizeOf l := by
  simp

theorem enum_weight_sum_aux : ∀ n : Nat,
    (∀ bs : BranchSet, sizeOf bs ≤ n → bs.wfWeights = true →
      ((bs.enumerate_paths).map Prod.fst).sum = 1) ∧
    (∀ l : List Branch, sizeOf l ≤ n → branchListWf l = true →
      ((enumBranchList l).map Prod.fst).sum = (l.map Branch.weight).sum) ∧
    (∀ b : Branch, sizeOf b ≤ n → b.wfWeights = true →
      ((enumBranch b).map Prod.fst).sum = b.weight) := by
  intro n
  induction n using Nat.strong_induction_on with
  | _ n ih =>
    refine ⟨?_, ?_, ?_⟩
    · intro bs hsz hwf
      cases bs with
      | mk l =>
        rw [BranchSet.wfWeights] at hwf
        rw [Bool.and_eq_true, decide_eq_true_eq] at hwf
        have hszl : sizeOf l < n := by
          rw [sizeOf_branchSet_mk] at hsz; omega
        have := (ih (sizeOf l) hszl).2.1 l le_rfl hwf.2
        rw [BranchSet.enumerate_paths, this, hwf.1]
    · intro l hsz hwf
      cases l with
      | nil => simp [enumBranchList]
      | cons b bs =>
        rw [branchListWf, Bool.and_eq_true] at hwf
        have hsb : sizeOf b < n := by
          have : sizeOf (b :: bs) = 1 + sizeOf b + sizeOf bs := by simp
          omega
        have hsbs : sizeOf bs < n := by
          have : sizeOf (b :: bs) = 1 + sizeOf b + sizeOf bs := by simp
          omega
        have h1 := (ih (sizeOf b) hsb).2.2 b le_rfl hwf.1
        have h2 := (ih (sizeOf bs) hsbs).2.1 bs le_rfl hwf.2
        rw [enumBranchList]
        rw [List.map_append, List.sum_append, h1, h2, List.map_cons,
          List.sum_cons]
    · intro b hsz hwf
      cases b with
      | mk i w v c =>
        cases c with
        | none => simp [enumBranch, Branch.weight]
        | some cbs =>
          rw [Branch.wfWeights] at hwf
          have hszc : sizeOf cbs < n := by
            have : sizeOf cbs < sizeOf (Branch.mk i w v (some cbs)) :=
              sizeOf_child_lt rfl
            omega
          have h1 := (ih (sizeOf cbs) hszc).1 cbs le_rfl hwf
          rw [enumBranch, Branch.weight]
          rw [List.map_map]
          have hmap :
              (Prod.fst ∘ fun qp : ℚ × List String => (w * qp.1, i :: qp.2)) =
              (fun qp : ℚ × List String => w * qp.1) := rfl
          rw [hmap]
          have : ((cbs.enumerate_paths).map fun qp => w * qp.1).sum =
              w * ((cbs.enumerate_paths).map Prod.fst).sum := by
            induction cbs.enumerate_paths with
            | nil => simp
            | cons x xs ihl => simp [ihl]; ring
          rw [this, h1, mul_one]

/-- Core of C1: if every reachable branchset's weights sum to 1, the
enumerated path weights sum to exactly 1. -/
theorem enumerate_paths_sum_of_wf (bs : BranchSet)
    (hwf : bs.wfWeights = true) :
    ((bs.enumerate_paths).map Prod.fst).sum = 1 :=
  (enum_weight_sum_aux (sizeOf bs)).1 bs le_rfl hwf

/-! ## Path lengths in chain-shaped trees (C5) -/

theorem enumBranchList_mem : ∀ (l : List Branch) (qp : ℚ × List String),
    qp ∈ enumBranchList l → ∃ b ∈ l, qp ∈ enumBranch b := by
  intro l
  induction l with
  | nil => intro qp h; simp [enumBranchList] at h
  | cons b bs ih =>
    intro qp h
    rw [enumBranchList, List.mem_append] at h
    cases h with
    | inl h => exact ⟨b, List.mem_cons_self b bs, h⟩
    | inr h =>
      obtain ⟨b', hb', hqp⟩ := ih qp h
      exact ⟨b', List.mem_cons_of_mem b hb', hqp⟩

theorem chain_tree_enum_length :
    ∀ (rest : List BranchSetNode) (bsn : BranchSetNode)
      (qp : ℚ × List String),
      qp ∈ (chain_tree bsn rest).enumerate_paths →
      qp.2.length = rest.length + 1 := by
  intro rest
  induction rest with
  | nil =>
    intro bsn qp h
    rw [chain_tree, BranchSet.enumerate_paths] at h
    obtain ⟨b, hb, hqp⟩ := enumBranchList_mem _ qp h
    obtain ⟨bn, _, rfl⟩ := List.mem_map.1 hb
    rw [enumBranch] at hqp
    simp only [List.mem_singleton] at hqp
    subst hqp
    simp
  | cons r rs ih =>
    intro bsn qp h
    rw [chain_tree, BranchSet.enumerate_paths] at h
    obtain ⟨b, hb, hqp⟩ := enumBranchList_mem _ qp h
    obtain ⟨bn, _, rfl⟩ := List.mem_map.1 hb
    rw [enumBranch, List.mem_map] at hqp
    obtain ⟨qp', hqp', rfl⟩ := hqp
    have := ih r qp' hqp'
    simp [this]

theorem chain_tree_sample_length :
    ∀ (rest : List BranchSetNode) (bsn : BranchSetNode) (draws : Nat → ℚ)
      (i : Nat) (p : List String) (j : Nat),
      BranchSet.sample_walk draws (chain_tree bsn rest) i = some (p, j) →
      p.length = rest.length + 1 := by
  intro rest
  induction rest with
  | nil =>
    intro bsn draws i p j h
    cases hso : sample_one (chain_tree bsn []).branches (draws i) with
    | none => rw [sample_walk_none hso] at h; cases h
    | some b =>
      have hb : b ∈ (chain_tree bsn []).branches := sample_one_mem hso
      rw [chain_tree, BranchSet.branches] at hb
      obtain ⟨bn, _, rfl⟩ := List.mem_map.1 hb
      rw [sample_walk_leaf hso rfl] at h
      cases h
      simp
  | cons r rs ih =>
    intro bsn draws i p j h
    cases hso : sample_one (chain_tree bsn (r :: rs)).branches (draws i) with
    | none => rw [sample_walk_none hso] at h; cases h
    | some b =>
      have hb : b ∈ (chain_tree bsn (r :: rs)).branches := sample_one_mem hso
      rw [chain_tree, BranchSet.branches] at hb
      obtain ⟨bn, _, rfl⟩ := List.mem_map.1 hb
      rw [sample_walk_node hso rfl] at h
      cases hrec : BranchSet.sample_walk draws (chain_tree r rs) (i + 1) with
      | none => rw [hrec] at h; cases h
      | some pj =>
        rw [hrec] at h
        cases pj with
        | mk p' j' =>
          simp only [Option.some.injEq, Prod.mk.injEq] at h
          have := ih r draws (i + 1) p' j' hrec
          rw [← h.1]
          simp [this]

/-! ## Facts about the construction engine -/

def bsnIds (bsn : BranchSetNode) : List String :=
  bsn.branches.map (fun b => b.branch_id)

/-- All branch ids declared by a document, in processing order. -/
def docBranchIds (doc : TreeDoc) : List String :=
  ((doc.flatten).map bsnIds).flatten

/-- The branch loop of `parse_branches`: the collected ids extend the old
ones by the node's branch ids in order, the weight sum accumulates
exactly the node's weights, and distinctness of the collected ids is
preserved (this is the duplicate-id check). -/
theorem branch_fold_spec {σ : Type} (hooks : Hooks σ) (validate : Bool)
    (bsn : BranchSetNode) :
    ∀ (bl : List BranchNode) (vst : σ) (ids : List String) (w : ℚ)
      (vst' : σ) (ids' : List String) (w' : ℚ),
      foldE (branch_loop_step hooks validate bsn) (vst, ids, w) bl =
        .ok (vst', ids', w') →
      ids' = ids ++ bl.map (fun b => b.branch_id) ∧
      w' = w + (bl.map (fun b => b.weight)).sum ∧
      (ids.Nodup → ids'.Nodup) := by
  intro bl
  induction bl with
  | nil =>
    intro vst ids w vst' ids' w' h
    rw [foldE] at h
    cases h
    refine ⟨by simp, by simp, fun h => h⟩
  | cons bn rest ih =>
    intro vst ids w vst' ids' w' h
    rw [foldE] at h
    rw [branch_loop_step] at h
    cases hv : (if validate then hooks.validate_uncertainty_value vst bsn bn
        else .ok vst) with
    | error e => rw [hv] at h; cases h
    | ok vst1 =>
      rw [hv] at h
      simp only at h
      by_cases hdup : ids.contains bn.branch_id
      · rw [if_pos hdup] at h; cases h
      · rw [if_neg hdup] at h
        simp only at h
        obtain ⟨h1, h2, h3⟩ := ih vst1 (ids ++ [bn.branch_id]) (w + bn.weight)
          vst' ids' w' h
        refine ⟨by rw [h1]; simp, by rw [h2]; simp; ring, ?_⟩
        intro hnd
        apply h3
        rw [List.nodup_append]
        refine ⟨hnd, List.nodup_singleton _, ?_⟩
        intro a ha hb
        rw [List.mem_singleton] at hb
        subst hb
        exact hdup (by simpa using ha)

/-- `parse_branches` on success: the branchset's weights sum to exactly 1,
the global id list is extended by the branchset's ids in order, and its
distinctness is preserved. -/
theorem parse_branches_spec {σ : Type} {hooks : Hooks σ} {validate : Bool}
    {bsn : BranchSetNode} {vst : σ} {ids : List String} {vst' : σ}
    {ids' : List String}
    (h : parse_branches hooks validate bsn vst ids = .ok (vst', ids')) :
    ids' = ids ++ bsnIds bsn ∧
    (bsn.branches.map (fun b => b.weight)).sum = 1 ∧
    (ids.Nodup → ids'.Nodup) := by
  rw [parse_branches] at h
  cases hf : foldE (branch_loop_step hooks validate bsn) (vst, ids, 0)
      bsn.branches with
  | error e => rw [hf] at h; cases h
  | ok acc =>
    rw [hf] at h
    obtain ⟨vst1, ids1, w1⟩ := acc
    simp only at h
    by_cases hw : w1 ≠ 1
    · rw [if_pos hw] at h; cases h
    · rw [if_neg hw] at h
      simp only [Except.ok.injEq, Prod.mk.injEq] at h
      push_neg at hw
      obtain ⟨h1, h2, h3⟩ := branch_fold_spec hooks validate bsn bsn.branches
        vst ids 0 vst1 ids1 w1 hf
      rw [h2, zero_add] at hw
      refine ⟨?_, hw, fun hnd => h.2 ▸ h3 hnd⟩
      rw [bsnIds]
      exact h.2 ▸ h1

theorem apply_to_step_preserves {k : Nat} {st : ConstrState} {bid : String}
    {st' : ConstrState} (h : apply_to_step k st bid = .ok st') :
    st'.branchIds = st.branchIds ∧ st'.bsets = st.bsets ∧
    st'.root = st.root ∧ st'.open_ends = st.open_ends := by
  rw [apply_to_step] at h
  split at h
  · cases h
  · split at h
    · cases h
    · split at h
      · cases h
      · cases h; exact ⟨rfl, rfl, rfl, rfl⟩

theorem foldE_apply_to_preserves {k : Nat} :
    ∀ (ids : List String) (st st' : ConstrState),
      foldE (apply_to_step k) st ids = .ok st' →
      st'.branchIds = st.branchIds ∧ st'.bsets = st.bsets ∧
      st'.root = st.root ∧ st'.open_ends = st.open_ends := by
  intro ids
  induction ids with
  | nil =>
    intro st st' h
    rw [foldE] at h
    cases h
    exact ⟨rfl, rfl, rfl, rfl⟩
  | cons bid rest ih =>
    intro st st' h
    rw [foldE] at h
    cases hs : apply_to_step k st bid with
    | error e => rw [hs] at h; cases h
    | ok st1 =>
      rw [hs] at h
      obtain ⟨p1, p2, p3, p4⟩ := apply_to_step_preserves hs
      obtain ⟨a1, a2, a3, a4⟩ := ih st1 st' h
      exact ⟨a1.trans p1, a2.trans p2, a3.trans p3, a4.trans p4⟩

/-- `apply_branchset` only mutates child links. -/
theorem apply_branchset_preserves {st : ConstrState} {k : Nat}
    {bsn : BranchSetNode} {st' : ConstrState}
    (h : apply_branchset st k bsn = .ok st') :
    st'.branchIds = st.branchIds ∧ st'.bsets = st.bsets ∧
    st'.root = st.root ∧ st'.open_ends = st.open_ends := by
  rw [apply_branchset] at h
  cases hap : bsn.apply_to_branches with
  | none =>
    rw [hap] at h
    cases h
    exact ⟨rfl, rfl, rfl, rfl⟩
  | some ids =>
    rw [hap] at h
    exact foldE_apply_to_preserves ids st st' h

/-- Case analysis of one step of the branchset loop on success. -/
theorem level_step_cases {σ : Type} {hooks : Hooks σ} {validate : Bool}
    {depth : Nat} {vst : σ} {st : ConstrState} {noe : List String}
    {num : Nat} {vst' : σ} {st' : ConstrState} {noe' : List String}
    {num' : Nat} {bsn : BranchSetNode}
    (h : level_step hooks validate depth (vst, st, noe, num) bsn =
      .ok (vst', st', noe', num')) :
    num' = num + 1 ∧
    ((hooks.skip_branchset_condition bsn = true ∧ st' = st ∧ noe' = noe) ∨
     (hooks.skip_branchset_condition bsn = false ∧
       st'.branchIds = st.branchIds ++ bsnIds bsn ∧
       st'.bsets = st.bsets ++ [bsn] ∧
       st'.open_ends = st.open_ends ∧
       (bsn.branches.map (fun b => b.weight)).sum = 1 ∧
       (st.branchIds.Nodup → st'.branchIds.Nodup) ∧
       noe' = noe ++ bsnIds bsn)) := by
  rw [level_step] at h
  by_cases hskip : hooks.skip_branchset_condition bsn = true
  · rw [if_pos hskip] at h
    simp only [Except.ok.injEq, Prod.mk.injEq] at h
    exact ⟨h.2.2.2.symm, Or.inl ⟨hskip, h.2.1.symm, h.2.2.1.symm⟩⟩
  · rw [if_neg hskip] at h
    rw [Bool.not_eq_true] at hskip
    cases hbs : parse_branchset hooks validate depth num bsn vst with
    | error e => rw [hbs] at h; cases h
    | ok vst1 =>
      rw [hbs] at h
      simp only at h
      cases hpb : parse_branches hooks validate bsn vst1 st.branchIds with
      | error e => rw [hpb] at h; cases h
      | ok p =>
        rw [hpb] at h
        obtain ⟨vst2, ids2⟩ := p
        simp only at h
        obtain ⟨hids, hsum, hnd⟩ := parse_branches_spec hpb
        set st1 : ConstrState :=
          { st with branchIds := ids2, bsets := st.bsets ++ [bsn] } with hst1
        by_cases hroot : st1.root = none
        · rw [if_pos hroot] at h
          simp only [Except.ok.injEq, Prod.mk.injEq] at h
          obtain ⟨_, hs, hn, hm⟩ := h
          refine ⟨hm.symm, Or.inr ⟨hskip, ?_⟩⟩
          rw [← hs]
          exact ⟨hids, rfl, rfl, hsum, fun hd => hids ▸ hnd hd, hn.symm⟩
        · rw [if_neg hroot] at h
          cases hap : apply_branchset st1 st.bsets.length bsn with
          | error e => rw [hap] at h; cases h
          | ok st2 =>
            rw [hap] at h
            simp only [Except.ok.injEq, Prod.mk.injEq] at h
            obtain ⟨_, hs, hn, hm⟩ := h
            obtain ⟨p1, p2, p3, p4⟩ := apply_branchset_preserves hap
            refine ⟨hm.symm, Or.inr ⟨hskip, ?_⟩⟩
            rw [← hs]
            refine ⟨p1.trans hids, p2, p4, hsum, fun hd => ?_, hn.symm⟩
            rw [p1]
            exact hnd hd

/-- Invariants of the branchset loop of one branching level. -/
theorem level_fold_spec {σ : Type} {hooks : Hooks σ} {validate : Bool}
    {depth : Nat} :
    ∀ (lvl : List BranchSetNode) (vst : σ) (st : ConstrState)
      (noe : List String) (num : Nat) (vst' : σ) (st' : ConstrState)
      (noe' : List String) (num' : Nat),
      foldE (level_step hooks validate depth) (vst, st, noe, num) lvl =
        .ok (vst', st', noe', num') →
      st'.open_ends = st.open_ends ∧
      (∀ b ∈ st'.bsets, b ∈ st.bsets ∨
        (b.branches.map (fun x => x.weight)).sum = 1) ∧
      (st.branchIds.Nodup → st'.branchIds.Nodup) ∧
      ((∀ b, hooks.skip_branchset_condition b = false) →
        st'.bsets = st.bsets ++ lvl ∧
        st'.branchIds = st.branchIds ++ (lvl.map bsnIds).flatten) := by
  intro lvl
  induction lvl with
  | nil =>
    intro vst st noe num vst' st' noe' num' h
    rw [foldE] at h
    simp only [Except.ok.injEq, Prod.mk.injEq] at h
    obtain ⟨_, hs, _, _⟩ := h
    subst hs
    exact ⟨rfl, fun b hb => Or.inl hb, fun hd => hd, fun _ => ⟨by simp, by simp⟩⟩
  | cons bsn rest ih =>
    intro vst st noe num vst' st' noe' num' h
    rw [foldE] at h
    cases hs : level_step hooks validate depth (vst, st, noe, num) bsn with
    | error e => rw [hs] at h; cases h
    | ok acc =>
      rw [hs] at h
      obtain ⟨vst1, st1, noe1, num1⟩ := acc
      obtain ⟨hnum, hcases⟩ := level_step_cases hs
      obtain ⟨hoe, hsum, hnd, hall⟩ := ih vst1 st1 noe1 num1 vst' st' noe' num' h
      cases hcases with
      | inl hc =>
        obtain ⟨hskip, hst, hnoe⟩ := hc
        subst hst
        refine ⟨hoe, hsum, hnd, fun hns => ?_⟩
        exact absurd (hns bsn) (by rw [hskip]; simp)
      | inr hc =>
        obtain ⟨hskip, hbids, hbsets, hoe1, hws, hndp, hnoe1⟩ := hc
        refine ⟨hoe.trans hoe1, ?_, fun hd => hnd (hndp hd), fun hns => ?_⟩
        · intro b hb
          cases hsum b hb with
          | inl hmem =>
            rw [hbsets] at hmem
            rw [List.mem_append] at hmem
            cases hmem with
            | inl hm => exact Or.inl hm
            | inr hm =>
              rw [List.mem_singleton] at hm
              subst hm
              exact Or.inr hws
          | inr hws' => exact Or.inr hws'
        · obtain ⟨ha1, ha2⟩ := hall hns
          constructor
          · rw [ha1, hbsets]
            simp
          · rw [ha2, hbids]
            simp [bsnIds]

/-- Invariants of `parse_branchinglevel`. -/
theorem parse_branchinglevel_spec {σ : Type} {hooks : Hooks σ}
    {validate : Bool} {depth : Nat} {vst : σ} {st : ConstrState}
    {lvl : LevelNode} {vst' : σ} {st' : ConstrState}
    (h : parse_branchinglevel hooks validate depth vst st lvl = .ok (vst', st')) :
    (∀ b ∈ st'.bsets, b ∈ st.bsets ∨
      (b.branches.map (fun x => x.weight)).sum = 1) ∧
    (st.branchIds.Nodup → st'.branchIds.Nodup) ∧
    ((∀ b, hooks.skip_branchset_condition b = false) →
      st'.bsets = st.bsets ++ lvl ∧
      st'.branchIds = st.branchIds ++ (lvl.map bsnIds).flatten) := by
  rw [parse_branchinglevel] at h
  cases hf : foldE (level_step hooks validate depth) (vst, st, [], 0) lvl with
  | error e => rw [hf] at h; cases h
  | ok acc =>
    rw [hf] at h
    obtain ⟨vst1, st1, noe1, num1⟩ := acc
    simp only [Except.ok.injEq, Prod.mk.injEq] at h
    obtain ⟨_, hs⟩ := h
    obtain ⟨_, hsum, hnd, hall⟩ :=
      level_fold_spec lvl vst st [] 0 vst1 st1 noe1 num1 hf
    subst hs
    exact ⟨hsum, hnd, hall⟩

/-- Invariants of the branching-level loop of `parse_tree`. -/
theorem tree_fold_spec {σ : Type} {hooks : Hooks σ} {validate : Bool} :
    ∀ (doc : TreeDoc) (vst : σ) (st : ConstrState) (depth : Nat) (vst' : σ)
      (st' : ConstrState) (depth' : Nat),
      foldE (tree_level_step hooks validate) (vst, st, depth) doc =
        .ok (vst', st', depth') →
      (∀ b ∈ st'.bsets, b ∈ st.bsets ∨
        (b.branches.map (fun x => x.weight)).sum = 1) ∧
      (st.branchIds.Nodup → st'.branchIds.Nodup) ∧
      ((∀ b, hooks.skip_branchset_condition b = false) →
        st'.bsets = st.bsets ++ doc.flatten ∧
        st'.branchIds = st.branchIds ++ docBranchIds doc) := by
  intro doc
  induction doc with
  | nil =>
    intro vst st depth vst' st' depth' h
    rw [foldE] at h
    simp only [Except.ok.injEq, Prod.mk.injEq] at h
    obtain ⟨_, hs, _⟩ := h
    subst hs
    exact ⟨fun b hb => Or.inl hb, fun hd => hd,
      fun _ => ⟨by simp, by simp [docBranchIds]⟩⟩
  | cons lvl rest ih =>
    intro vst st depth vst' st' depth' h
    rw [foldE] at h
    cases hs : tree_level_step hooks validate (vst, st, depth) lvl with
    | error e => rw [hs] at h; cases h
    | ok acc =>
      rw [hs] at h
      obtain ⟨vst1, st1, depth1⟩ := acc
      rw [tree_level_step] at hs
      cases hl : parse_branchinglevel hooks validate depth vst st lvl with
      | error e => rw [hl] at hs; cases hs
      | ok p =>
        rw [hl] at hs
        obtain ⟨vstl, stl⟩ := p
        simp only [Except.ok.injEq, Prod.mk.injEq] at hs
        obtain ⟨hv1, hs1, hd1⟩ := hs
        subst hs1
        obtain ⟨hsum1, hnd1, hall1⟩ := parse_branchinglevel_spec hl
        obtain ⟨hsum2, hnd2, hall2⟩ := ih vst1 stl depth1 vst' st' depth' h
        refine ⟨?_, fun hd => hnd2 (hnd1 hd), fun hns => ?_⟩
        · intro b hb
          cases hsum2 b hb with
          | inl hmem =>
            cases hsum1 b hmem with
            | inl hm => exact Or.inl hm
            | inr hw => exact Or.inr hw
          | inr hw => exact Or.inr hw
        · obtain ⟨hb1, hi1⟩ := hall1 hns
          obtain ⟨hb2, hi2⟩ := hall2 hns
          constructor
          · rw [hb2, hb1]
            simp
          · rw [hi2, hi1]
            simp [docBranchIds]

/-- Invariants of a successful `parse_tree` run: every recorded branchset
has weight sum exactly 1, the collected branch ids are distinct, and when
no branchset is skipped the recorded branchsets and ids are exactly the
document's, in document order. -/
theorem parse_tree_spec {σ : Type} {hooks : Hooks σ} {validate : Bool}
    {vst0 : σ} {doc : TreeDoc} {vst : σ} {st : ConstrState}
    (h : parse_tree hooks validate vst0 doc = .ok (vst, st)) :
    (∀ b ∈ st.bsets, (b.branches.map (fun x => x.weight)).sum = 1) ∧
    st.branchIds.Nodup ∧
    ((∀ b, hooks.skip_branchset_condition b = false) →
      st.bsets = doc.flatten ∧ st.branchIds = docBranchIds doc) := by
  rw [parse_tree] at h
  cases hf : foldE (tree_level_step hooks validate)
      (vst0, initConstrState, 0) doc with
  | error e => rw [hf] at h; cases h
  | ok acc =>
    rw [hf] at h
    obtain ⟨vst1, st1, depth1⟩ := acc
    dsimp only at h
    obtain ⟨hsum, hnd, hall⟩ :=
      tree_fold_spec doc vst0 initConstrState 0 vst1 st1 depth1 hf
    cases hv : (if validate then hooks.validate_tree vst1 st1.branchIds
        else .ok ()) with
    | error e => rw [hv] at h; cases h
    | ok u =>
      rw [hv] at h
      simp only [Except.ok.injEq, Prod.mk.injEq] at h
      obtain ⟨_, hs⟩ := h
      subst hs
      refine ⟨?_, hnd (by simp [initConstrState]), fun hns => ?_⟩
      · intro b hb
        cases hsum b hb with
        | inl hm => simp [initConstrState] at hm
        | inr hw => exact hw
      · obtain ⟨h1, h2⟩ := hall hns
        rw [h1, h2]
        simp [initConstrState]

/-! ## `validate=False`: which checks still run (C10) -/

theorem branch_loop_step_validate_false {σ : Type} (h1 h2 : Hooks σ) :
    branch_loop_step h1 false = branch_loop_step h2 false := by
  funext bsn acc bn
  rw [branch_loop_step, branch_loop_step]
  simp

theorem parse_branches_validate_false {σ : Type} (h1 h2 : Hooks σ) :
    parse_branches h1 false = parse_branches h2 false := by
  funext bsn vst ids
  rw [parse_branches, parse_branches, branch_loop_step_validate_false h1 h2]

theorem parse_branchset_validate_false {σ : Type} (h : Hooks σ)
    (depth number : Nat) (bsn : BranchSetNode) (vst : σ) :
    parse_branchset h false depth number bsn vst = .ok vst := by
  rw [parse_branchset]
  simp

theorem level_step_validate_false {σ : Type} (h1 h2 : Hooks σ)
    (hskip : h1.skip_branchset_condition = h2.skip_branchset_condition)
    (depth : Nat) :
    level_step h1 false depth = level_step h2 false depth := by
  funext acc bsn
  obtain ⟨vst, st, noe, num⟩ := acc
  rw [level_step, level_step, hskip]
  by_cases hs : h2.skip_branchset_condition bsn = true
  · rw [if_pos hs, if_pos hs]
  · rw [if_neg hs, if_neg hs]
    rw [parse_branchset_validate_false, parse_branchset_validate_false]
    dsimp only
    rw [parse_branches_validate_false h1 h2]

theorem tree_level_step_validate_false {σ : Type} (h1 h2 : Hooks σ)
    (hskip : h1.skip_branchset_condition = h2.skip_branchset_condition) :
    tree_level_step h1 false = tree_level_step h2 false := by
  funext acc lvl
  rw [tree_level_step, tree_level_step, parse_branchinglevel,
    parse_branchinglevel, level_step_validate_false h1 h2 hskip]

/-- With `validate=False` the four validation hooks (`validate_filters`,
`validate_uncertainty_value`, `validate_branchset`, `validate_tree`) are
never consulted: the construction result is the same whatever they are. -/
theorem parse_tree_validate_false_hooks {σ : Type} (h1 h2 : Hooks σ)
    (hskip : h1.skip_branchset_condition = h2.skip_branchset_condition)
    (vst0 : σ) (doc : TreeDoc) :
    parse_tree h1 false vst0 doc = parse_tree h2 false vst0 doc := by
  rw [parse_tree, parse_tree, tree_level_step_validate_false h1 h2 hskip]
  cases foldE (tree_level_step h2 false) (vst0, initConstrState, 0) doc with
  | error e => rfl
  | ok p => obtain ⟨vst, st, d⟩ := p; simp

/-- A branchset whose weights do not sum to 1, anywhere in the document,
makes construction fail — also with `validate=False`. -/
theorem parse_tree_error_of_bad_weights {σ : Type} {hooks : Hooks σ}
    {validate : Bool} {vst0 : σ} {doc : TreeDoc}
    (hns : ∀ b, hooks.skip_branchset_condition b = false)
    {bsn : BranchSetNode} (hmem : bsn ∈ doc.flatten)
    (hbad : (bsn.branches.map (fun x => x.weight)).sum ≠ 1) :
    (parse_tree hooks validate vst0 doc).isOk = false := by
  cases hres : parse_tree hooks validate vst0 doc with
  | error e => rfl
  | ok p =>
    obtain ⟨vst, st⟩ := p
    obtain ⟨hsum, _, hall⟩ := parse_tree_spec hres
    obtain ⟨hb, _⟩ := hall hns
    exact absurd (hsum bsn (hb ▸ hmem)) hbad

/-- A duplicated branch id anywhere in the document makes construction
fail — also with `validate=False`. -/
theorem parse_tree_error_of_dup_id {σ : Type} {hooks : Hooks σ}
    {validate : Bool} {vst0 : σ} {doc : TreeDoc}
    (hns : ∀ b, hooks.skip_branchset_condition b = false)
    (hdup : ¬ (docBranchIds doc).Nodup) :
    (parse_tree hooks validate vst0 doc).isOk = false := by
  cases hres : parse_tree hooks validate vst0 doc with
  | error e => rfl
  | ok p =>
    obtain ⟨vst, st⟩ := p
    obtain ⟨_, hnd, hall⟩ := parse_tree_spec hres
    obtain ⟨_, hi⟩ := hall hns
    exact absurd (hi ▸ hnd) hdup

/-! ## Coverage of tectonic region types by a GMPE tree (C7) -/

/-- The region types covered by the document's branchsets that the GMPE
tree actually processes (the non-skipped ones), in document order. -/
def coveredTrts (known : List String) (doc : TreeDoc) : List String :=
  ((doc.flatten).filter (fun b => ! gmpeSkip known b)).filterMap trtOf

theorem parse_branchset_validate_true {σ : Type} (hooks : Hooks σ)
    (depth number : Nat) (bsn : BranchSetNode) (vst : σ) :
    parse_branchset hooks true depth number bsn vst =
      (match hooks.validate_filters vst bsn with
       | .error e => .error e
       | .ok v1 =>
         match hooks.validate_branchset v1 depth number bsn with
         | .error e => .error e
         | .ok _ => .ok v1) := by
  rw [parse_branchset]
  rfl

theorem gmpe_validate_filters_ok {known vst : List String}
    {bsn : BranchSetNode} {vst1 : List String}
    (h : gmpeValidateFilters known vst bsn = .ok vst1) :
    ∃ trt, trtOf bsn = some trt ∧ vst1 = vst ++ [trt] := by
  rw [gmpeValidateFilters] at h
  cases hf : bsn.filters with
  | nil => rw [hf] at h; cases h
  | cons p rest =>
    cases rest with
    | cons q rest2 => rw [hf] at h; cases h
    | nil =>
      obtain ⟨fname, trt⟩ := p
      rw [hf] at h
      dsimp only at h
      by_cases hname : fname ≠ "applyToTectonicRegionType"
      · rw [if_pos hname] at h; cases h
      · rw [if_neg hname] at h
        push_neg at hname
        by_cases hknown : ¬ known.contains trt = true
        · rw [if_pos hknown] at h; cases h
        · rw [if_neg hknown] at h
          by_cases hdef : vst.contains trt = true
          · rw [if_pos hdef] at h; cases h
          · rw [if_neg hdef] at h
            cases h
            refine ⟨trt, ?_, rfl⟩
            rw [trtOf, hf, hname]
            simp

theorem gmpe_parse_branchset_ok {known gsims : List String} {depth number : Nat}
    {bsn : BranchSetNode} {vst vst1 : List String}
    (h : parse_branchset (gmpeHooks known gsims) true depth number bsn vst =
      .ok vst1) :
    ∃ trt, trtOf bsn = some trt ∧ vst1 = vst ++ [trt] := by
  rw [parse_branchset_validate_true] at h
  cases hvf : (gmpeHooks known gsims).validate_filters vst bsn with
  | error e => rw [hvf] at h; cases h
  | ok vmid =>
    rw [hvf] at h
    simp only at h
    cases hvb : (gmpeHooks known gsims).validate_branchset vmid depth number bsn with
    | error e => rw [hvb] at h; cases h
    | ok u =>
      rw [hvb] at h
      cases h
      exact gmpe_validate_filters_ok hvf

theorem gmpe_branch_fold_vst {known gsims : List String} {validate : Bool}
    {bsn : BranchSetNode} :
    ∀ (bl : List BranchNode) (vst : List String) (ids : List String) (w : ℚ)
      (vst' : List String) (ids' : List String) (w' : ℚ),
      foldE (branch_loop_step (gmpeHooks known gsims) validate bsn)
        (vst, ids, w) bl = .ok (vst', ids', w') →
      vst' = vst := by
  intro bl
  induction bl with
  | nil =>
    intro vst ids w vst' ids' w' h
    rw [foldE] at h
    cases h
    rfl
  | cons bn rest ih =>
    intro vst ids w vst' ids' w' h
    rw [foldE, branch_loop_step] at h
    cases hv : (if validate then
        (gmpeHooks known gsims).validate_uncertainty_value vst bsn bn
        else .ok vst) with
    | error e => rw [hv] at h; cases h
    | ok vst1 =>
      have hv1 : vst1 = vst := by
        by_cases hval : validate
        · rw [if_pos hval] at hv
          rw [gmpeHooks] at hv
          simp only at hv
          split at hv
          · cases hv; rfl
          · cases hv
        · rw [if_neg hval] at hv
          cases hv
          rfl
      rw [hv] at h
      dsimp only at h
      by_cases hdup : ids.contains bn.branch_id = true
      · rw [if_pos hdup] at h; cases h
      · rw [if_neg hdup] at h
        exact (ih vst1 _ _ vst' ids' w' h).trans hv1

theorem gmpe_parse_branches_vst {known gsims : List String} {validate : Bool}
    {bsn : BranchSetNode} {vst : List String} {ids : List String}
    {vst' : List String} {ids' : List String}
    (h : parse_branches (gmpeHooks known gsims) validate bsn vst ids =
      .ok (vst', ids')) :
    vst' = vst := by
  rw [parse_branches] at h
  cases hf : foldE (branch_loop_step (gmpeHooks known gsims) validate bsn)
      (vst, ids, 0) bsn.branches with
  | error e => rw [hf] at h; cases h
  | ok acc =>
    rw [hf] at h
    obtain ⟨vst1, ids1, w1⟩ := acc
    simp only at h
    split at h
    · cases h
    · simp only [Except.ok.injEq, Prod.mk.injEq] at h
      exact h.1 ▸ gmpe_branch_fold_vst bsn.branches vst ids 0 vst1 ids1 w1 hf

theorem gmpe_level_step_vst {known gsims : List String} {depth : Nat}
    {vst : List String} {st : ConstrState} {noe : List String} {num : Nat}
    {vst' : List String} {st' : ConstrState} {noe' : List String} {num' : Nat}
    {bsn : BranchSetNode}
    (h : level_step (gmpeHooks known gsims) true depth (vst, st, noe, num) bsn =
      .ok (vst', st', noe', num')) :
    (gmpeSkip known bsn = true ∧ vst' = vst) ∨
    (gmpeSkip known bsn = false ∧
      ∃ trt, trtOf bsn = some trt ∧ vst' = vst ++ [trt]) := by
  rw [level_step] at h
  by_cases hskip : (gmpeHooks known gsims).skip_branchset_condition bsn = true
  · rw [if_pos hskip] at h
    simp only [Except.ok.injEq, Prod.mk.injEq] at h
    exact Or.inl ⟨hskip, h.1.symm⟩
  · rw [if_neg hskip] at h
    rw [Bool.not_eq_true] at hskip
    cases hbs : parse_branchset (gmpeHooks known gsims) true depth num bsn vst with
    | error e => rw [hbs] at h; cases h
    | ok vst1 =>
      rw [hbs] at h
      simp only at h
      cases hpb : parse_branches (gmpeHooks known gsims) true bsn vst1
          st.branchIds with
      | error e => rw [hpb] at h; cases h
      | ok p =>
        rw [hpb] at h
        obtain ⟨vst2, ids2⟩ := p
        simp only at h
        obtain ⟨trt, htrt, hv1⟩ := gmpe_parse_branchset_ok hbs
        have hv2 : vst2 = vst1 := gmpe_parse_branches_vst hpb
        refine Or.inr ⟨hskip, trt, htrt, ?_⟩
        set st1 : ConstrState :=
          { st with branchIds := ids2, bsets := st.bsets ++ [bsn] } with hst1
        by_cases hroot : st1.root = none
        · rw [if_pos hroot] at h
          simp only [Except.ok.injEq, Prod.mk.injEq] at h
          rw [← h.1, hv2, hv1]
        · rw [if_neg hroot] at h
          cases hap : apply_branchset st1 st.bsets.length bsn with
          | error e => rw [hap] at h; cases h
          | ok st2 =>
            rw [hap] at h
            simp only [Except.ok.injEq, Prod.mk.injEq] at h
            rw [← h.1, hv2, hv1]

theorem gmpe_level_fold_vst {known gsims : List String} {depth : Nat} :
    ∀ (lvl : List BranchSetNode) (vst : List String) (st : ConstrState)
      (noe : List String) (num : Nat) (vst' : List String) (st' : ConstrState)
      (noe' : List String) (num' : Nat),
      foldE (level_step (gmpeHooks known gsims) true depth)
        (vst, st, noe, num) lvl = .ok (vst', st', noe', num') →
      vst' = vst ++ (lvl.filter (fun b => ! gmpeSkip known b)).filterMap trtOf := by
  intro lvl
  induction lvl with
  | nil =>
    intro vst st noe num vst' st' noe' num' h
    rw [foldE] at h
    cases h
    simp
  | cons bsn rest ih =>
    intro vst st noe num vst' st' noe' num' h
    rw [foldE] at h
    cases hs : level_step (gmpeHooks known gsims) true depth
        (vst, st, noe, num) bsn with
    | error e => rw [hs] at h; cases h
    | ok acc =>
      rw [hs] at h
      obtain ⟨vst1, st1, noe1, num1⟩ := acc
      have hrest := ih vst1 st1 noe1 num1 vst' st' noe' num' h
      cases gmpe_level_step_vst hs with
      | inl hc =>
        rw [List.filter_cons_of_neg (by rw [hc.1]; simp)]
        rw [hrest, hc.2]
      | inr hc =>
        obtain ⟨hskip, trt, htrt, hv1⟩ := hc
        rw [List.filter_cons_of_pos (by rw [hskip]; rfl)]
        rw [List.filterMap_cons_some htrt]
        rw [hrest, hv1]
        simp

theorem gmpe_tree_fold_vst {known gsims : List String} :
    ∀ (doc : TreeDoc) (vst : List String) (st : ConstrState) (d : Nat)
      (vst' : List String) (st' : ConstrState) (d' : Nat),
      foldE (tree_level_step (gmpeHooks known gsims) true) (vst, st, d) doc =
        .ok (vst', st', d') →
      vst' = vst ++ coveredTrts known doc := by
  intro doc
  induction doc with
  | nil =>
    intro vst st d vst' st' d' h
    rw [foldE] at h
    cases h
    simp [coveredTrts]
  | cons lvl rest ih =>
    intro vst st d vst' st' d' h
    rw [foldE] at h
    cases hs : tree_level_step (gmpeHooks known gsims) true (vst, st, d) lvl with
    | error e => rw [hs] at h; cases h
    | ok acc =>
      rw [hs] at h
      obtain ⟨vst1, st1, d1⟩ := acc
      rw [tree_level_step] at hs
      cases hl : parse_branchinglevel (gmpeHooks known gsims) true d vst st lvl with
      | error e => rw [hl] at hs; cases hs
      | ok p =>
        rw [hl] at hs
        obtain ⟨vstl, stl⟩ := p
        simp only [Except.ok.injEq, Prod.mk.injEq] at hs
        rw [parse_branchinglevel] at hl
        cases hf : foldE (level_step (gmpeHooks known gsims) true d)
            (vst, st, [], 0) lvl with
        | error e => rw [hf] at hl; cases hl
        | ok acc2 =>
          rw [hf] at hl
          obtain ⟨vstf, stf, noef, numf⟩ := acc2
          simp only [Except.ok.injEq, Prod.mk.injEq] at hl
          have hlvl := gmpe_level_fold_vst lvl vst st [] 0 vstf stf noef numf hf
          have hrest := ih vst1 st1 d1 vst' st' d' h
          rw [hrest, ← hs.1, ← hl.1, hlvl]
          rw [coveredTrts, coveredTrts]
          simp [List.filter_append, List.filterMap_append]

/-! ## The construction state of a single-branchset-per-level document (C5)

For a document whose branching levels each hold exactly one branchset and
whose branchsets carry no `applyToBranches` attribute, the final
construction state has a closed form `mkChainState`: the root is the first
branchset, every branch of level `k` is linked to the branchset of level
`k + 1`, and the open ends are the last level's branches. -/

def allIds (l : List BranchSetNode) : List String :=
  (l.map bsnIds).flatten

def chainChild : List BranchSetNode → Nat → List (String × Nat)
  | [], _ => []
  | [_], _ => []
  | b :: r :: rs, i =>
    (bsnIds b).map (fun id => (id, i + 1)) ++ chainChild (r :: rs) (i + 1)

def lastIds : List BranchSetNode → List String
  | [] => []
  | [b] => bsnIds b
  | _ :: r :: rs => lastIds (r :: rs)

def frontIds : List BranchSetNode → List String
  | [] => []
  | [_] => []
  | b :: r :: rs => bsnIds b ++ frontIds (r :: rs)

def mkChainState (l : List BranchSetNode) : ConstrState :=
  { branchIds := allIds l
  , bsets := l
  , root := if l = [] then none else some 0
  , child := chainChild l 0
  , open_ends := lastIds l }

theorem allIds_decomp : ∀ (l : List BranchSetNode), l ≠ [] →
    allIds l = frontIds l ++ lastIds l := by
  intro l
  induction l with
  | nil => intro h; exact absurd rfl h
  | cons b rest ih =>
    intro _
    cases rest with
    | nil => simp [allIds, frontIds, lastIds, bsnIds]
    | cons r rs =>
      rw [frontIds, lastIds]
      have := ih (by simp)
      rw [allIds] at this ⊢
      simp only [List.map_cons, List.flatten_cons] at this ⊢
      rw [this]
      simp

theorem lastIds_append (l : List BranchSetNode) (b : BranchSetNode) :
    lastIds (l ++ [b]) = bsnIds b := by
  induction l with
  | nil => simp [lastIds]
  | cons x rest ih =>
    cases rest with
    | nil => simp [lastIds]
    | cons r rs => simpa [lastIds] using ih

theorem chainChild_append : ∀ (l : List BranchSetNode), l ≠ [] →
    ∀ (b : BranchSetNode) (i : Nat),
      chainChild (l ++ [b]) i =
        chainChild l i ++ (lastIds l).map (fun id => (id, i + l.length)) := by
  intro l
  induction l with
  | nil => intro h; exact absurd rfl h
  | cons x rest ih =>
    intro _ b i
    cases rest with
    | nil => simp [chainChild, lastIds]
    | cons r rs =>
      rw [List.cons_append, chainChild, lastIds]
      rw [List.cons_append, chainChild]
      have ihx := ih (by simp) b (i + 1)
      rw [List.cons_append] at ihx
      rw [ihx]
      simp only [List.append_assoc, List.length_cons]
      have : i + 1 + (rs.length + 1) = i + (rs.length + 1 + 1) := by omega
      rw [this]

theorem childLookup_nil (id : String) : childLookup [] id = none := by
  simp [childLookup]

theorem childLookup_cons (p : String × Nat) (rest : List (String × Nat))
    (id : String) :
    childLookup (p :: rest) id =
      if p.1 = id then some p.2 else childLookup rest id := by
  by_cases hp : p.1 = id
  · simp [childLookup, List.find?_cons, hp]
  · simp [childLookup, List.find?_cons, hp]

theorem childLookup_append (m1 m2 : List (String × Nat)) (id : String) :
    childLookup (m1 ++ m2) id =
      (match childLookup m1 id with
       | some v => some v
       | none => childLookup m2 id) := by
  induction m1 with
  | nil => simp [childLookup_nil]
  | cons p rest ih =>
    rw [List.cons_append, childLookup_cons, childLookup_cons]
    by_cases hp : p.1 = id
    · rw [if_pos hp, if_pos hp]
    · rw [if_neg hp, if_neg hp, ih]

theorem childLookup_map_const_mem {ids : List String} {id : String} (k : Nat)
    (h : id ∈ ids) :
    childLookup (ids.map (fun s => (s, k))) id = some k := by
  induction ids with
  | nil => simp at h
  | cons x rest ih =>
    rw [List.map_cons, childLookup_cons]
    by_cases hx : x = id
    · rw [if_pos hx]
    · rw [if_neg hx]
      rw [List.mem_cons] at h
      cases h with
      | inl hh => exact absurd hh.symm hx
      | inr hh => exact ih hh

theorem childLookup_map_const_not_mem {ids : List String} {id : String}
    (k : Nat) (h : id ∉ ids) :
    childLookup (ids.map (fun s => (s, k))) id = none := by
  induction ids with
  | nil => simp [childLookup_nil]
  | cons x rest ih =>
    rw [List.map_cons, childLookup_cons]
    rw [List.mem_cons, not_or] at h
    rw [if_neg (fun hh : x = id => h.1 hh.symm)]
    exact ih h.2

theorem childLookup_chainChild_none :
    ∀ (l : List BranchSetNode) (i : Nat) (id : String), id ∉ frontIds l →
      childLookup (chainChild l i) id = none := by
  intro l
  induction l with
  | nil => intro i id _; simp [chainChild, childLookup_nil]
  | cons x rest ih =>
    intro i id hid
    cases rest with
    | nil => simp [chainChild, childLookup_nil]
    | cons r rs =>
      rw [frontIds, List.mem_append, not_or] at hid
      rw [chainChild, childLookup_append,
        childLookup_map_const_not_mem _ hid.1, ih (i + 1) id hid.2]

theorem foldl_childSet_append (k : Nat) :
    ∀ (ids : List String) (m : List (String × Nat)),
      (∀ id ∈ ids, childLookup m id = none) → ids.Nodup →
      ids.foldl (fun m id => childSet m id k) m =
        m ++ ids.map (fun id => (id, k)) := by
  intro ids
  induction ids with
  | nil => intro m _ _; simp
  | cons x rest ih =>
    intro m hfresh hnd
    rw [List.foldl_cons]
    have hx : childSet m x k = m ++ [(x, k)] := by
      rw [childSet, if_neg (by
        rw [hfresh x (List.mem_cons_self x rest)]
        simp)]
    rw [hx]
    rw [List.nodup_cons] at hnd
    rw [ih (m ++ [(x, k)]) ?_ hnd.2]
    · simp
    · intro id hid
      rw [childLookup_append, hfresh id (List.mem_cons_of_mem x hid)]
      dsimp only
      rw [childLookup_cons, if_neg ?_, childLookup_nil]
      intro hh
      have hxi : x = id := hh
      exact hnd.1 (hxi ▸ hid)

theorem chainChild_lookup :
    ∀ (l : List BranchSetNode) (i j : Nat) (b : BranchSetNode)
      (rest : List BranchSetNode) (id : String),
      l.drop j = b :: rest → (allIds l).Nodup → id ∈ bsnIds b →
      childLookup (chainChild l i) id =
        (if rest = [] then none else some (i + j + 1)) := by
  intro l
  induction l with
  | nil => intro i j b rest id hdrop _ _; simp at hdrop
  | cons x xs ih =>
    intro i j b rest id hdrop hnd hid
    cases j with
    | zero =>
      rw [List.drop_zero] at hdrop
      cases hdrop
      cases xs with
      | nil => simp [chainChild, childLookup_nil]
      | cons r rs =>
        rw [chainChild, childLookup_append, childLookup_map_const_mem _ hid]
        simp
    | succ j' =>
      rw [List.drop_succ_cons] at hdrop
      have hall : allIds (x :: xs) = bsnIds x ++ allIds xs := by
        simp [allIds]
      rw [hall, List.nodup_append] at hnd
      have hbxs : b ∈ xs :=
        List.mem_of_mem_drop (hdrop ▸ List.mem_cons_self b rest)
      have hidxs : id ∈ allIds xs := by
        rw [allIds, List.mem_flatten]
        exact ⟨bsnIds b, List.mem_map_of_mem _ hbxs, hid⟩
      have hidx : id ∉ bsnIds x := fun hc => hnd.2.2 hc hidxs
      cases xs with
      | nil => simp at hdrop
      | cons r rs =>
        rw [chainChild, childLookup_append,
          childLookup_map_const_not_mem _ hidx]
        rw [ih (i + 1) j' b rest id hdrop hnd.2.1 hid]
        cases rest with
        | nil => simp
        | cons q qs =>
          simp only [if_neg (by simp : ¬ q :: qs = [])]
          have : i + 1 + j' + 1 = i + (j' + 1) + 1 := by omega
          rw [this]

theorem buildBranches_all_none (f : Nat → Option BranchSet)
    (child : List (String × Nat)) :
    ∀ (bl : List BranchNode),
      (∀ bn ∈ bl, childLookup child bn.branch_id = none) →
      buildBranches f child bl =
        some (bl.map (fun bn => Branch.mk bn.branch_id bn.weight bn.value none)) := by
  intro bl
  induction bl with
  | nil => intro _; rfl
  | cons bn rest ih =>
    intro h
    rw [buildBranches, ih (fun x hx => h x (List.mem_cons_of_mem bn hx)),
      h bn (List.mem_cons_self bn rest)]
    simp

theorem buildBranches_all_some (f : Nat → Option BranchSet)
    (child : List (String × Nat)) (j : Nat) (cbs : BranchSet)
    (hf : f j = some cbs) :
    ∀ (bl : List BranchNode),
      (∀ bn ∈ bl, childLookup child bn.branch_id = some j) →
      buildBranches f child bl =
        some (bl.map
          (fun bn => Branch.mk bn.branch_id bn.weight bn.value (some cbs))) := by
  intro bl
  induction bl with
  | nil => intro _; rfl
  | cons bn rest ih =>
    intro h
    rw [buildBranches, ih (fun x hx => h x (List.mem_cons_of_mem bn hx)),
      h bn (List.mem_cons_self bn rest)]
    simp [hf]

theorem get?_of_drop_eq_cons :
    ∀ {α : Type} (l : List α) (j : Nat) (b : α) (rest : List α),
      l.drop j = b :: rest → l.get? j = some b := by
  intro α l
  induction l with
  | nil => intro j b rest h; simp at h
  | cons x xs ih =>
    intro j b rest h
    cases j with
    | zero =>
      rw [List.drop_zero] at h
      cases h
      rfl
    | succ j' =>
      rw [List.drop_succ_cons] at h
      exact ih j' b rest h

theorem buildTree_chain :
    ∀ (rest : List BranchSetNode) (l : List BranchSetNode) (j : Nat)
      (b : BranchSetNode) (fuel : Nat),
      l.drop j = b :: rest → (allIds l).Nodup →
      l.length - j ≤ fuel + 1 →
      buildTree (mkChainState l) (fuel + 1) j = some (chain_tree b rest) := by
  intro rest
  induction rest with
  | nil =>
    intro l j b fuel hdrop hnd _
    rw [buildTree]
    have hget : (mkChainState l).bsets.get? j = some b :=
      get?_of_drop_eq_cons l j b [] hdrop
    rw [hget]
    dsimp only
    have hlook : ∀ bn ∈ b.branches,
        childLookup (mkChainState l).child bn.branch_id = none := by
      intro bn hbn
      have := chainChild_lookup l 0 j b [] bn.branch_id hdrop hnd
        (List.mem_map_of_mem _ hbn)
      simpa [mkChainState] using this
    rw [buildBranches_all_none _ _ b.branches hlook]
    rw [chain_tree]
  | cons r rs ih =>
    intro l j b fuel hdrop hnd hfuel
    have hlen : l.length - j = rs.length + 2 := by
      have := List.length_drop j l
      rw [hdrop] at this
      simp at this
      omega
    cases fuel with
    | zero => omega
    | succ fuel' =>
      rw [buildTree]
      have hget : (mkChainState l).bsets.get? j = some b :=
        get?_of_drop_eq_cons l j b (r :: rs) hdrop
      rw [hget]
      dsimp only
      have hdrop' : l.drop (j + 1) = r :: rs := by
        have h1 : l.drop (j + 1) = (l.drop j).drop 1 := by
          rw [List.drop_drop]
        rw [h1, hdrop]
        rfl
      have hrec := ih l (j + 1) r fuel' hdrop' hnd (by omega)
      have hlook : ∀ bn ∈ b.branches,
          childLookup (mkChainState l).child bn.branch_id = some (j + 1) := by
        intro bn hbn
        have := chainChild_lookup l 0 j b (r :: rs) bn.branch_id hdrop hnd
          (List.mem_map_of_mem _ hbn)
        rw [if_neg (by simp)] at this
        simpa [mkChainState] using this
      rw [buildBranches_all_some _ _ (j + 1) (chain_tree r rs) hrec b.branches
        hlook]
      rw [chain_tree]

/-- The tree extracted from the chain-shaped construction state is the
chain tree. -/
theorem extractTree_chain (b : BranchSetNode) (bl : List BranchSetNode)
    (hnd : (allIds (b :: bl)).Nodup) :
    extractTree (mkChainState (b :: bl)) = some (chain_tree b bl) := by
  rw [extractTree]
  have hroot : (mkChainState (b :: bl)).root = some 0 := by
    simp [mkChainState]
  rw [hroot]
  have hlen : (mkChainState (b :: bl)).bsets.length = bl.length + 1 := by
    simp [mkChainState]
  rw [hlen]
  exact buildTree_chain bl (b :: bl) 0 b bl.length (by simp) hnd (by simp)

theorem allIds_append_single (l : List BranchSetNode) (b : BranchSetNode) :
    allIds (l ++ [b]) = allIds l ++ bsnIds b := by
  simp [allIds]

theorem chain_level_step {σ : Type} {hooks : Hooks σ} {validate : Bool}
    (hskip : ∀ b, hooks.skip_branchset_condition b = false)
    {processed : List BranchSetNode} {b : BranchSetNode} {vst vst1 : σ}
    {st1 : ConstrState} {d d1 : Nat}
    (happ : b.apply_to_branches = none)
    (hnd : (allIds processed).Nodup)
    (h : tree_level_step hooks validate (vst, mkChainState processed, d) [b] =
      .ok (vst1, st1, d1)) :
    st1 = mkChainState (processed ++ [b]) ∧
    (allIds (processed ++ [b])).Nodup := by
  rw [tree_level_step] at h
  cases hl : parse_branchinglevel hooks validate d vst (mkChainState processed)
      [b] with
  | error e => rw [hl] at h; cases h
  | ok p =>
    rw [hl] at h
    obtain ⟨vstl, stl⟩ := p
    simp only [Except.ok.injEq, Prod.mk.injEq] at h
    rw [parse_branchinglevel] at hl
    simp only [foldE] at hl
    cases hs : level_step hooks validate d (vst, mkChainState processed, [], 0)
        b with
    | error e => rw [hs] at hl; cases hl
    | ok acc =>
      rw [hs] at hl
      obtain ⟨vsta, sta, noea, numa⟩ := acc
      dsimp only at hl
      simp only [Except.ok.injEq, Prod.mk.injEq] at hl
      rw [level_step] at hs
      rw [hskip b, if_neg Bool.false_ne_true] at hs
      cases hbs : parse_branchset hooks validate d 0 b vst with
      | error e => rw [hbs] at hs; cases hs
      | ok vstb =>
        rw [hbs] at hs
        simp only at hs
        cases hpb : parse_branches hooks validate b vstb
            (mkChainState processed).branchIds with
        | error e => rw [hpb] at hs; cases hs
        | ok pb =>
          rw [hpb] at hs
          obtain ⟨vstc, ids2⟩ := pb
          simp only at hs
          obtain ⟨hids, _, hndp⟩ := parse_branches_spec hpb
          have hids2 : ids2 = allIds processed ++ bsnIds b := hids
          have hnd2 : (allIds (processed ++ [b])).Nodup := by
            rw [allIds_append_single, ← hids2]
            exact hndp hnd
          refine ⟨?_, hnd2⟩
          cases processed with
          | nil =>
            have hroot : (mkChainState ([] : List BranchSetNode)).root = none := by
              simp [mkChainState]
            rw [if_pos hroot] at hs
            simp only [Except.ok.injEq, Prod.mk.injEq] at hs
            obtain ⟨_, hsta, hnoea, _⟩ := hs
            rw [← h.2.1, ← hl.2, ← hsta, ← hnoea]
            dsimp only
            simp only [mkChainState, ConstrState.mk.injEq]
            rw [hids2]
            refine ⟨by simp [allIds], by simp, by simp, ?_, ?_⟩
            · simp [chainChild]
            · simp [lastIds, bsnIds]
          | cons p ps =>
            have hroot : ¬ (mkChainState (p :: ps)).root = none := by
              simp [mkChainState]
            rw [if_neg hroot] at hs
            rw [apply_branchset, happ] at hs
            simp only [Except.ok.injEq, Prod.mk.injEq] at hs
            obtain ⟨_, hsta, hnoea, _⟩ := hs
            have hfresh : ∀ id ∈ lastIds (p :: ps),
                childLookup (chainChild (p :: ps) 0) id = none := by
              intro id hid
              apply childLookup_chainChild_none
              have hdec := allIds_decomp (p :: ps) (by simp)
              rw [hdec, List.nodup_append] at hnd
              intro hc
              exact hnd.2.2 hc hid
            have hndlast : (lastIds (p :: ps)).Nodup := by
              have hdec := allIds_decomp (p :: ps) (by simp)
              rw [hdec, List.nodup_append] at hnd
              exact hnd.2.1
            rw [← h.2.1, ← hl.2, ← hsta, ← hnoea]
            dsimp only
            have hchild :
                (mkChainState (p :: ps)).open_ends.foldl
                  (fun m id => childSet m id (mkChainState (p :: ps)).bsets.length)
                  (mkChainState (p :: ps)).child =
                chainChild (p :: (ps ++ [b])) 0 := by
              have hoe : (mkChainState (p :: ps)).open_ends = lastIds (p :: ps) := rfl
              have hch : (mkChainState (p :: ps)).child = chainChild (p :: ps) 0 := rfl
              have hln : (mkChainState (p :: ps)).bsets.length = (p :: ps).length := rfl
              rw [hoe, hch, hln]
              rw [foldl_childSet_append (p :: ps).length (lastIds (p :: ps))
                (chainChild (p :: ps) 0) hfresh hndlast]
              have := chainChild_append (p :: ps) (by simp) b 0
              rw [List.cons_append] at this
              rw [this]
              simp
            simp only [mkChainState, ConstrState.mk.injEq]
            refine ⟨?_, by simp, by simp, ?_, ?_⟩
            · rw [hids2]
              have := allIds_append_single (p :: ps) b
              rw [List.cons_append] at this
              rw [← this]
              simp [allIds]
            · exact hchild
            · rw [lastIds_append (p :: ps) b]
              simp [bsnIds]

theorem chain_fold {σ : Type} {hooks : Hooks σ} {validate : Bool}
    (hskip : ∀ b, hooks.skip_branchset_condition b = false) :
    ∀ (rest processed : List BranchSetNode) (vst : σ) (d : Nat) (vst' : σ)
      (st' : ConstrState) (d' : Nat),
      (∀ b ∈ rest, b.apply_to_branches = none) →
      (allIds processed).Nodup →
      foldE (tree_level_step hooks validate)
        (vst, mkChainState processed, d) (rest.map (fun x => [x])) =
        .ok (vst', st', d') →
      st' = mkChainState (processed ++ rest) := by
  intro rest
  induction rest with
  | nil =>
    intro processed vst d vst' st' d' _ _ h
    rw [List.map_nil, foldE] at h
    simp only [Except.ok.injEq, Prod.mk.injEq] at h
    rw [← h.2.1]
    simp
  | cons b brest ih =>
    intro processed vst d vst' st' d' happ hnd h
    rw [List.map_cons, foldE] at h
    cases hs : tree_level_step hooks validate (vst, mkChainState processed, d)
        [b] with
    | error e => rw [hs] at h; cases h
    | ok acc =>
      rw [hs] at h
      obtain ⟨vst1, st1, d1⟩ := acc
      obtain ⟨hst1, hnd1⟩ :=
        chain_level_step hskip (happ b (List.mem_cons_self b brest)) hnd hs
      subst hst1
      have := ih (processed ++ [b]) vst1 d1 vst' st' d'
        (fun x hx => happ x (List.mem_cons_of_mem b hx)) hnd1 h
      rw [this]
      simp

/-- A successfully constructed tree from a document whose levels each hold
one branchset and whose branchsets have no `applyToBranches` attribute has
the chain-shaped construction state. -/
theorem parse_tree_chain {σ : Type} {hooks : Hooks σ} {validate : Bool}
    (hskip : ∀ b, hooks.skip_branchset_condition b = false)
    {l : List BranchSetNode} {vst0 vst : σ} {st : ConstrState}
    (happ : ∀ b ∈ l, b.apply_to_branches = none)
    (h : parse_tree hooks validate vst0 (l.map (fun x => [x])) = .ok (vst, st)) :
    st = mkChainState l ∧ (allIds l).Nodup := by
  have hnd := (parse_tree_spec h).2.1
  rw [parse_tree] at h
  cases hf : foldE (tree_level_step hooks validate)
      (vst0, initConstrState, 0) (l.map (fun x => [x])) with
  | error e => rw [hf] at h; cases h
  | ok acc =>
    rw [hf] at h
    obtain ⟨vst1, st1, d1⟩ := acc
    dsimp only at h
    have hinit : initConstrState = mkChainState [] := rfl
    rw [hinit] at hf
    have hst1 := chain_fold hskip l [] vst0 0 vst1 st1 d1 happ (by simp [allIds]) hf
    rw [List.nil_append] at hst1
    cases hv : (if validate then hooks.validate_tree vst1 st1.branchIds
        else .ok ()) with
    | error e => rw [hv] at h; cases h
    | ok u =>
      rw [hv] at h
      simp only [Except.ok.injEq, Prod.mk.injEq] at h
      refine ⟨h.2 ▸ hst1, ?_⟩
      have : st.branchIds = allIds l := by
        rw [← h.2, hst1]
        rfl
      exact this ▸ hnd

/-! ## The flat GSIM tree: sorting and counting (C8) -/

theorem insertSorted_append {α : Type} {lt : α → α → Bool} {x : α} :
    ∀ (acc : List α), (∀ y ∈ acc, lt x y = false) →
      insertSorted lt x acc = acc ++ [x] := by
  intro acc
  induction acc with
  | nil => intro _; rfl
  | cons y ys ih =>
    intro h
    rw [insertSorted, h y (List.mem_cons_self y ys)]
    rw [if_neg Bool.false_ne_true]
    rw [ih (fun z hz => h z (List.mem_cons_of_mem y hz))]
    rfl

theorem pySorted_fold_eq {α : Type} {lt : α → α → Bool} :
    ∀ (l : List α) (acc : List α),
      (∀ x ∈ l, ∀ y ∈ acc, lt x y = false) →
      List.Pairwise (fun a b => lt b a = false) l →
      l.foldl (fun acc x => insertSorted lt x acc) acc = acc ++ l := by
  intro l
  induction l with
  | nil => intro acc _ _; simp
  | cons x xs ih =>
    intro acc hcross hpw
    rw [List.foldl_cons,
      insertSorted_append acc (fun y hy => hcross x (List.mem_cons_self x xs) y hy)]
    rw [List.pairwise_cons] at hpw
    rw [ih (acc ++ [x]) ?_ hpw.2]
    · simp
    · intro z hz y hy
      rw [List.mem_append] at hy
      cases hy with
      | inl hm => exact hcross z (List.mem_cons_of_mem x hz) y hm
      | inr hm =>
        rw [List.mem_singleton] at hm
        subst hm
        exact hpw.1 z hz

/-- CPython's `sorted` returns a list with no inversion unchanged; so does
the model. -/
theorem pySorted_eq_self {α : Type} {lt : α → α → Bool} {l : List α}
    (h : List.Pairwise (fun a b => lt b a = false) l) :
    pySorted lt l = l := by
  rw [pySorted, pySorted_fold_eq l [] (fun x _ y hy => absurd hy (by simp)) h]
  rfl

theorem sum_map_const_nat {α : Type} (c : Nat) :
    ∀ (l : List α), (l.map (fun _ => c)).sum = l.length * c := by
  intro l
  induction l with
  | nil => simp
  | cons x xs ih =>
    simp [ih]
    ring

theorem productGroups_length :
    ∀ (gs : List (List GBranch)),
      (productGroups gs).length = (gs.map List.length).prod := by
  intro gs
  induction gs with
  | nil => rfl
  | cons g rest ih =>
    rw [productGroups, List.length_flatten, List.map_map]
    have : (List.length ∘ fun x => (productGroups rest).map (fun c => x :: c)) =
        fun _ : GBranch => (productGroups rest).length := by
      funext x
      simp
    rw [this, sum_map_const_nat _ g, ih]
    simp [Nat.mul_comm]

def headBsetID (g : List GBranch) : String :=
  match g with
  | [] => ""
  | x :: _ => x.bsetID

theorem dictInsert_fresh {m : List (String × Nat)} {k : String} (v : Nat)
    (h : (m.find? (fun p => p.1 = k)).isSome = false) :
    dictInsert m k v = m ++ [(k, v)] := by
  rw [dictInsert, if_neg (by rw [h]; simp)]

theorem find?_pair_append_none {m1 m2 : List (String × Nat)} {k : String}
    (h1 : (m1.find? (fun p => p.1 = k)).isSome = false) :
    ((m1 ++ m2).find? (fun p => p.1 = k)).isSome =
      (m2.find? (fun p => p.1 = k)).isSome := by
  induction m1 with
  | nil => rfl
  | cons p rest ih =>
    simp only [List.cons_append, List.find?_cons] at h1 ⊢
    by_cases hp : p.1 = k
    · rw [decide_eq_true hp] at h1
      simp at h1
    · rw [decide_eq_false hp] at h1 ⊢
      exact ih h1

theorem fold_dictInsert_eq :
    ∀ (gs : List (List GBranch)) (m : List (String × Nat)),
      (∀ g ∈ gs, (m.find? (fun p => p.1 = headBsetID g)).isSome = false) →
      (gs.map headBsetID).Nodup →
      gs.foldl (fun m g => dictInsert m (headBsetID g) g.length) m =
        m ++ gs.map (fun g => (headBsetID g, g.length)) := by
  intro gs
  induction gs with
  | nil => intro m _ _; simp
  | cons g rest ih =>
    intro m hfresh hnd
    rw [List.foldl_cons,
      dictInsert_fresh _ (hfresh g (List.mem_cons_self g rest))]
    rw [List.map_cons, List.nodup_cons] at hnd
    rw [ih (m ++ [(headBsetID g, g.length)]) ?_ hnd.2]
    · simp
    · intro g2 hg2
      rw [find?_pair_append_none (hfresh g2 (List.mem_cons_of_mem g hg2))]
      have hne : ¬ ((headBsetID g, g.length).1 = headBsetID g2) := by
        intro hh
        apply hnd.1
        rw [show headBsetID g = headBsetID g2 from hh]
        exact List.mem_map_of_mem headBsetID hg2
      rw [List.find?_cons, decide_eq_false hne]
      rfl

theorem foldl_mul_len : ∀ (gs : List (List GBranch)) (a : Nat),
    gs.foldl (fun n g => n * g.length) a = a * (gs.map List.length).prod := by
  intro gs
  induction gs with
  | nil => intro a; simp
  | cons g rest ih =>
    intro a
    rw [List.foldl_cons, ih, List.map_cons, List.prod_cons]
    ring

/-- With distinct `branchSetID`s, `get_num_paths` is the product of the
group sizes. -/
theorem get_num_paths_eq_prod (bl : List GBranch)
    (hnd : ((groupConsec bl).map headBsetID).Nodup) :
    get_num_paths bl = ((groupConsec bl).map List.length).prod := by
  rw [get_num_paths]
  have heq : get_num_branches bl =
      (groupConsec bl).foldl
        (fun m g => dictInsert m (headBsetID g) g.length) [] := rfl
  rw [heq, fold_dictInsert_eq (groupConsec bl) [] (fun g _ => by simp) hnd,
    List.nil_append, List.foldl_map]
  exact (foldl_mul_len (groupConsec bl) 1).trans (one_mul _)

/-! ## Total draws: the assertion in `sample_one` is unreachable (C9) -/

theorem sampleOneGo_total :
    ∀ (bs : List Branch) (acc d : ℚ), bs ≠ [] →
      d ≤ acc + (bs.map Branch.weight).sum →
      (sampleOneGo d bs acc).isSome = true := by
  intro bs
  induction bs with
  | nil => intro acc d h _; exact absurd rfl h
  | cons b rest ih =>
    intro acc d _ hsum
    rw [sampleOneGo]
    by_cases hd : d ≤ acc + b.weight
    · rw [if_pos hd]
      rfl
    · rw [if_neg hd]
      cases hrest : rest with
      | nil =>
        exact absurd (by
          rw [hrest] at hsum
          simp at hsum
          linarith) hd
      | cons r rs =>
        rw [← hrest]
        apply ih (acc + b.weight) d (by rw [hrest]; simp)
        rw [List.map_cons, List.sum_cons] at hsum
        linarith

/-! ## Example inputs used by the claim witnesses

`unitHooks` instantiates the abstract engine's hooks with a variant that
performs no extra validation (state `Unit`); the properties exercised
through it (weight-sum check, duplicate-id check, linking, path shape) are
those of the shared `BaseLogicTree` code, which by
`parse_tree_validate_false_hooks` are independent of the hooks under
`validate=False` anyway. -/

def unitHooks : Hooks Unit :=
  { skip_branchset_condition := fun _ => false
  , validate_filters := fun s _ => .ok s
  , validate_uncertainty_value := fun s _ _ => .ok s
  , validate_branchset := fun _ _ _ _ => .ok ()
  , validate_tree := fun _ _ => .ok () }

/-- The two-level scenario of the spec: A(0.3)/B(0.7), then C(0.4)/D(0.6)
under both. -/
def bsScenario : BranchSet :=
  BranchSet.mk
    [ Branch.mk "A" (3/10) "mA"
        (some (BranchSet.mk
          [Branch.mk "C" (2/5) "vC" none, Branch.mk "D" (3/5) "vD" none]))
    , Branch.mk "B" (7/10) "mB"
        (some (BranchSet.mk
          [Branch.mk "C2" (2/5) "vC" none, Branch.mk "D2" (3/5) "vD" none])) ]

/-- C1: for every successfully constructed logic tree with at least one
branchset — i.e. for every linked tree all of whose branchsets satisfy the
weight-sum-1 invariant that construction enforces (`parse_branches`, see
C2) — the weights produced by `BranchSet.enumerate_paths` (each the exact
product of the weights of the branches on the path) sum to exactly 1. -/
theorem enumerate_paths_total_weight_one (bs : BranchSet)
    (h : bs.wfWeights = true) :
    ((bs.enumerate_paths).map Prod.fst).sum = 1 :=
  enumerate_paths_sum_of_wf bs h

theorem enumerate_paths_total_weight_one_witness :
    bsScenario.wfWeights = true ∧
    ((bsScenario.enumerate_paths).map Prod.fst).sum = 1 :=
  ⟨by norm_num [bsScenario, BranchSet.wfWeights, branchListWf, Branch.wfWeights,
      Branch.weight],
   enumerate_paths_total_weight_one bsScenario
     (by norm_num [bsScenario, BranchSet.wfWeights, branchListWf,
       Branch.wfWeights, Branch.weight])⟩

/-- C3: random sampling is deterministic.  `__iter__` rebuilds the
generator from the stored seed (`random.Random(self.seed)`), so the whole
sampled sequence is a function of the tree, the seed and the sample count
alone: two runs with equal seeds and equal counts produce equal
sequences, for every underlying seeded generator `g`. -/
theorem sampling_deterministic (g : Int → Nat → ℚ) (root : BranchSet)
    (seed1 seed2 : Int) (n1 n2 : Nat) (hseed : seed1 = seed2) (hn : n1 = n2) :
    lt_iter_sample g seed1 n1 root = lt_iter_sample g seed2 n2 root := by
  rw [hseed, hn]

theorem sampling_deterministic_witness :
    (7 : Int) = 7 ∧ (2 : Nat) = 2 ∧
    lt_iter_sample (fun _ _ => 1/3) 7 2 bsScenario =
      lt_iter_sample (fun _ _ => 1/3) 7 2 bsScenario :=
  ⟨rfl, rfl, sampling_deterministic (fun _ _ => 1/3) bsScenario 7 7 2 2 rfl rfl⟩

/-- C4: each draw of `sample_path` selects the first branch, in declared
order, at which the running cumulative weight sum reaches the uniform
draw (`chosen_branch`), then descends into that branch's child branchset
and repeats until a leaf: every path produced by the sampling walk is a
path of the spec-side relation `IsSampledPath`. -/
theorem sample_path_cumulative_walk (draws : Nat → ℚ) (bs : BranchSet)
    (i : Nat) (p : List String) (j : Nat)
    (h : BranchSet.sample_walk draws bs i = some (p, j)) :
    IsSampledPath draws bs i p :=
  sample_walk_isSampledPath_aux (sizeOf bs) bs le_rfl draws i p j h

theorem sample_path_cumulative_walk_witness :
    BranchSet.sample_walk (fun _ => 1/5) bsScenario 0 = some (["A", "C"], 2) ∧
    IsSampledPath (fun _ => 1/5) bsScenario 0 ["A", "C"] := by
  have hw : BranchSet.sample_walk (fun _ => 1/5) bsScenario 0 =
      some (["A", "C"], 2) := by
    rw [bsScenario]
    rw [@sample_walk_node (fun _ => 1/5)
      (BranchSet.mk
        [ Branch.mk "A" (3/10) "mA"
            (some (BranchSet.mk
              [Branch.mk "C" (2/5) "vC" none, Branch.mk "D" (3/5) "vD" none]))
        , Branch.mk "B" (7/10) "mB"
            (some (BranchSet.mk
              [Branch.mk "C2" (2/5) "vC" none, Branch.mk "D2" (3/5) "vD" none])) ])
      0
      (Branch.mk "A" (3/10) "mA"
        (some (BranchSet.mk
          [Branch.mk "C" (2/5) "vC" none, Branch.mk "D" (3/5) "vD" none])))
      (BranchSet.mk
        [Branch.mk "C" (2/5) "vC" none, Branch.mk "D" (3/5) "vD" none])
      (by norm_num [sample_one, sampleOneGo, BranchSet.branches, Branch.weight])
      rfl]
    rw [@sample_walk_leaf (fun _ => 1/5)
      (BranchSet.mk
        [Branch.mk "C" (2/5) "vC" none, Branch.mk "D" (3/5) "vD" none])
      1
      (Branch.mk "C" (2/5) "vC" none)
      (by norm_num [sample_one, sampleOneGo, BranchSet.branches, Branch.weight])
      rfl]
    rfl
  exact ⟨hw, sample_path_cumulative_walk (fun _ => 1/5) bsScenario 0
    ["A", "C"] 2 hw⟩

/-- C9: when the branch weights sum to exactly 1, `sample_one` always
returns a branch: the `AssertionError` line is unreachable, because the
uniform draw is `< 1` while the final accumulated sum equals 1. -/
theorem sample_one_never_asserts (branches : List Branch) (d : ℚ)
    (hsum : (branches.map Branch.weight).sum = 1) (h0 : 0 ≤ d) (h1 : d < 1) :
    (sample_one branches d).isSome = true := by
  have hne : branches ≠ [] := by
    intro hc
    rw [hc] at hsum
    simp at hsum
  apply sampleOneGo_total branches 0 d hne
  rw [hsum]
  linarith

theorem sample_one_never_asserts_witness :
    ((bsScenario.branches.map Branch.weight).sum = 1 ∧ (0:ℚ) ≤ 9/10 ∧
      (9:ℚ)/10 < 1) ∧
    (sample_one bsScenario.branches (9/10)).isSome = true :=
  ⟨⟨by norm_num [bsScenario, BranchSet.branches, Branch.weight], by norm_num,
    by norm_num⟩,
   sample_one_never_asserts bsScenario.branches (9/10)
     (by norm_num [bsScenario, BranchSet.branches, Branch.weight])
     (by norm_num) (by norm_num)⟩

/-! ## Witness documents for the construction claims -/

def bsnGood : BranchSetNode :=
  { uncertainty_type := "sourceModel", filters := [], apply_to_branches := none
  , branches := [ { branch_id := "b1", weight := 1/2, value := "sA" }
                , { branch_id := "b2", weight := 1/2, value := "sB" } ] }

def docGood : TreeDoc := [[bsnGood]]

def stGood : ConstrState :=
  { branchIds := ["b1", "b2"], bsets := [bsnGood], root := some 0
  , child := [], open_ends := ["b1", "b2"] }

def bsnBad : BranchSetNode :=
  { uncertainty_type := "sourceModel", filters := [], apply_to_branches := none
  , branches := [ { branch_id := "b1", weight := 1/2, value := "sA" }
                , { branch_id := "b2", weight := 1/3, value := "sB" } ] }

def docBad : TreeDoc := [[bsnBad]]

def bsnDupA : BranchSetNode :=
  { uncertainty_type := "sourceModel", filters := [], apply_to_branches := none
  , branches := [ { branch_id := "b1", weight := 1, value := "sA" } ] }

def bsnDupB : BranchSetNode :=
  { uncertainty_type := "maxMagGRRelative", filters := []
  , apply_to_branches := none
  , branches := [ { branch_id := "b1", weight := 1, value := "0.2" } ] }

def docDup : TreeDoc := [[bsnDupA], [bsnDupB]]

theorem parse_tree_docGood :
    parse_tree unitHooks true () docGood = .ok ((), stGood) := by
  norm_num [parse_tree, foldE, tree_level_step, parse_branchinglevel,
    level_step, parse_branchset, parse_branches, branch_loop_step,
    apply_branchset, unitHooks, docGood, bsnGood, initConstrState, stGood]
  rw [if_neg (show ¬ ("b2" : String) = "b1" from by decide)]
  norm_num [stGood, bsnGood]

/-- C2: the branchset weight-sum rule is enforced during construction:
(a) every branchset of a successfully constructed tree has branch weights
summing to exactly 1, and (b) a document containing a (non-skipped)
branchset whose weights do not sum to 1 always fails to construct —
`parse_branches` raises `ValidationError` regardless of `validate`. -/
theorem branchset_weight_sum_enforced {σ : Type} (hooks : Hooks σ) :
    (∀ (validate : Bool) (vst0 : σ) (doc : TreeDoc) (vst : σ)
        (st : ConstrState),
      parse_tree hooks validate vst0 doc = .ok (vst, st) →
      ∀ bsn ∈ st.bsets, (bsn.branches.map (fun b => b.weight)).sum = 1) ∧
    (∀ (validate : Bool) (vst0 : σ) (doc : TreeDoc) (bsn : BranchSetNode),
      (∀ b, hooks.skip_branchset_condition b = false) →
      bsn ∈ doc.flatten →
      (bsn.branches.map (fun b => b.weight)).sum ≠ 1 →
      (parse_tree hooks validate vst0 doc).isOk = false) :=
  ⟨fun _ _ _ _ _ h bsn hm => (parse_tree_spec h).1 bsn hm,
   fun _ _ _ _ hns hm hbad => parse_tree_error_of_bad_weights hns hm hbad⟩

theorem branchset_weight_sum_enforced_witness :
    (parse_tree unitHooks true () docGood = .ok ((), stGood) ∧
      ∀ bsn ∈ stGood.bsets, (bsn.branches.map (fun b => b.weight)).sum = 1) ∧
    (bsnBad ∈ docBad.flatten ∧
      (bsnBad.branches.map (fun b => b.weight)).sum ≠ 1 ∧
      (parse_tree unitHooks true () docBad).isOk = false) := by
  refine ⟨⟨parse_tree_docGood, fun bsn hm =>
    (branchset_weight_sum_enforced unitHooks).1 true () docGood () stGood
      parse_tree_docGood bsn hm⟩, ?_, ?_, ?_⟩
  · simp [docBad]
  · norm_num [bsnBad]
  · exact (branchset_weight_sum_enforced unitHooks).2 true () docBad bsnBad
      (fun _ => rfl) (by simp [docBad]) (by norm_num [bsnBad])

/-- C6: branch ids are globally unique across the whole tree:
(a) the id table of a successfully constructed tree has no duplicates,
and (b) a document that declares the same branch id twice — even in
different branching levels or branchsets — always fails to construct
(`parse_branches` checks each new id against `self.branches`, which spans
all levels). -/
theorem branch_ids_globally_unique {σ : Type} (hooks : Hooks σ) :
    (∀ (validate : Bool) (vst0 : σ) (doc : TreeDoc) (vst : σ)
        (st : ConstrState),
      parse_tree hooks validate vst0 doc = .ok (vst, st) →
      st.branchIds.Nodup) ∧
    (∀ (validate : Bool) (vst0 : σ) (doc : TreeDoc),
      (∀ b, hooks.skip_branchset_condition b = false) →
      ¬ (docBranchIds doc).Nodup →
      (parse_tree hooks validate vst0 doc).isOk = false) :=
  ⟨fun _ _ _ _ _ h => (parse_tree_spec h).2.1,
   fun _ _ _ hns hdup => parse_tree_error_of_dup_id hns hdup⟩

theorem branch_ids_globally_unique_witness :
    (parse_tree unitHooks true () docGood = .ok ((), stGood) ∧
      stGood.branchIds.Nodup) ∧
    (¬ (docBranchIds docDup).Nodup ∧
      (parse_tree unitHooks true () docDup).isOk = false) := by
  have hdup : ¬ (docBranchIds docDup).Nodup := by
    simp [docBranchIds, docDup, bsnDupA, bsnDupB, bsnIds]
  exact ⟨⟨parse_tree_docGood,
      (branch_ids_globally_unique unitHooks).1 true () docGood () stGood
        parse_tree_docGood⟩,
    hdup,
    (branch_ids_globally_unique unitHooks).2 true () docDup
      (fun _ => rfl) hdup⟩

/-- Hooks whose validators all raise: used to exhibit that with
`validate=False` they are never called. -/
def errHooks : Hooks Unit :=
  { skip_branchset_condition := fun _ => false
  , validate_filters := fun _ _ => .error (.hookError "filters")
  , validate_uncertainty_value := fun _ _ _ => .error (.hookError "value")
  , validate_branchset := fun _ _ _ _ => .error (.hookError "branchset")
  , validate_tree := fun _ _ => .error (.hookError "tree") }

/-- C10: with `validate=False` the four variant validation hooks
(`validate_filters`, `validate_uncertainty_value`, `validate_branchset`,
`validate_tree`) are never consulted — construction gives identical
results for any two hook sets agreeing on `skip_branchset_condition` —
while the structural checks of `parse_branches` (weight sum exactly 1,
no duplicate branch id) still run and still fail construction. -/
theorem validate_false_skips_hooks {σ : Type} :
    (∀ (h1 h2 : Hooks σ),
      h1.skip_branchset_condition = h2.skip_branchset_condition →
      ∀ (vst0 : σ) (doc : TreeDoc),
        parse_tree h1 false vst0 doc = parse_tree h2 false vst0 doc) ∧
    (∀ (hooks : Hooks σ) (vst0 : σ) (doc : TreeDoc),
      (∀ b, hooks.skip_branchset_condition b = false) →
      ((∃ bsn ∈ doc.flatten, (bsn.branches.map (fun b => b.weight)).sum ≠ 1) ∨
        ¬ (docBranchIds doc).Nodup) →
      (parse_tree hooks false vst0 doc).isOk = false) :=
  ⟨fun h1 h2 hs vst0 doc => parse_tree_validate_false_hooks h1 h2 hs vst0 doc,
   fun _ _ _ hns hbad => by
    cases hbad with
    | inl h => obtain ⟨bsn, hm, hw⟩ := h
               exact parse_tree_error_of_bad_weights hns hm hw
    | inr h => exact parse_tree_error_of_dup_id hns h⟩

theorem validate_false_skips_hooks_witness :
    (unitHooks.skip_branchset_condition = errHooks.skip_branchset_condition ∧
      parse_tree unitHooks false () docBad =
        parse_tree errHooks false () docBad) ∧
    ((∃ bsn ∈ docBad.flatten,
        (bsn.branches.map (fun b => b.weight)).sum ≠ 1) ∧
      (parse_tree unitHooks false () docBad).isOk = false) :=
  ⟨⟨rfl, (@validate_false_skips_hooks Unit).1 unitHooks errHooks rfl
      () docBad⟩,
   ⟨⟨bsnBad, by simp [docBad], by norm_num [bsnBad]⟩,
    (@validate_false_skips_hooks Unit).2 unitHooks () docBad
      (fun _ => rfl)
      (.inl ⟨bsnBad, by simp [docBad], by norm_num [bsnBad]⟩)⟩⟩

/-! ## C7: GMPE tectonic-region-type coverage -/

def bsnG : BranchSetNode :=
  { uncertainty_type := "gmpeModel"
  , filters := [("applyToTectonicRegionType", "A")]
  , apply_to_branches := none
  , branches := [ { branch_id := "g1", weight := 1, value := "G1" } ] }

def docG : TreeDoc := [[bsnG]]

def stG : ConstrState :=
  { branchIds := ["g1"], bsets := [bsnG], root := some 0
  , child := [], open_ends := ["g1"] }

theorem gmpe_fold_docG :
    foldE (tree_level_step (gmpeHooks ["A", "B"] ["G1"]) true)
      ([], initConstrState, 0) docG = .ok (["A"], stG, 1) := by
  norm_num [foldE, tree_level_step, parse_branchinglevel, level_step,
    parse_branchset, parse_branches, branch_loop_step, apply_branchset,
    gmpeHooks, gmpeSkip, trtOf, gmpeValidateFilters, gmpeValidateBranchset,
    docG, bsnG, initConstrState, stG]

/-- C7: after parsing a GMPE document, `defined_tectonic_region_types`
holds exactly the region types declared by the non-skipped branchsets (in
order), and `validate_tree` then compares them with the known set: it
succeeds exactly when nothing is missing, and otherwise raises a
`ValidationError` naming the sorted list of missing region types. -/
theorem gmpe_coverage_check (known gsims : List String) (doc : TreeDoc)
    (defined : List String) (st : ConstrState) (d : Nat)
    (hfold : foldE (tree_level_step (gmpeHooks known gsims) true)
      ([], initConstrState, 0) doc = .ok (defined, st, d)) :
    defined = coveredTrts known doc ∧
    parse_tree (gmpeHooks known gsims) true [] doc =
      (if missing_trts known defined = [] then .ok (defined, st)
       else .error (.missingTrts
         ((missing_trts known defined).insertionSort (· ≤ ·)))) := by
  constructor
  · have h := gmpe_tree_fold_vst doc [] initConstrState 0 defined st d hfold
    simpa using h
  · rw [parse_tree, hfold]
    dsimp only
    have hval : (if (true : Bool) then
        (gmpeHooks known gsims).validate_tree defined st.branchIds
        else .ok ()) = gmpeValidateTree known defined := rfl
    rw [hval, gmpeValidateTree]
    by_cases hm : missing_trts known defined = []
    · rw [if_pos hm, if_pos hm]
    · rw [if_neg hm, if_neg hm]

theorem gmpe_coverage_check_witness :
    foldE (tree_level_step (gmpeHooks ["A", "B"] ["G1"]) true)
      ([], initConstrState, 0) docG = .ok (["A"], stG, 1) ∧
    ["A"] = coveredTrts ["A", "B"] docG ∧
    parse_tree (gmpeHooks ["A", "B"] ["G1"]) true [] docG =
      .error (.missingTrts ["B"]) := by
  have h := gmpe_coverage_check ["A", "B"] ["G1"] docG ["A"] stG 1 gmpe_fold_docG
  refine ⟨gmpe_fold_docG, h.1, ?_⟩
  rw [h.2]
  have hmiss : missing_trts ["A", "B"] ["A"] = ["B"] := by decide
  rw [hmiss, if_neg (by decide : ¬ (["B"] : List String) = [])]
  rfl

/-! ## C5: path lengths versus the number of branching levels -/

def bsnC5a : BranchSetNode :=
  { uncertainty_type := "sourceModel", filters := [], apply_to_branches := none
  , branches := [ { branch_id := "A", weight := 1/2, value := "sA" }
                , { branch_id := "B", weight := 1/2, value := "sB" } ] }

def bsnC5b : BranchSetNode :=
  { uncertainty_type := "maxMagGRRelative", filters := []
  , apply_to_branches := some ["A"]
  , branches := [ { branch_id := "C", weight := 1, value := "0.2" } ] }

def docC5 : TreeDoc := [[bsnC5a], [bsnC5b]]

def stC5 : ConstrState :=
  { branchIds := ["A", "B", "C"], bsets := [bsnC5a, bsnC5b], root := some 0
  , child := [("A", 1)], open_ends := ["C"] }

def treeC5 : BranchSet :=
  BranchSet.mk
    [ Branch.mk "A" (1/2) "sA" (some (BranchSet.mk [Branch.mk "C" 1 "0.2" none]))
    , Branch.mk "B" (1/2) "sB" none ]

/-- The spec's claim that every path has as many branches as the document
has branching levels fails on trees built with `applyToBranches`: a
two-level document constructs successfully, yet the branch `B` that the
second level is not applied to ends a path of length 1. -/
theorem path_length_counterexample :
    parse_tree unitHooks false () docC5 = .ok ((), stC5) ∧
    extractTree stC5 = some treeC5 ∧
    (treeC5.enumerate_paths).map (fun qp => qp.2) = [["A", "C"], ["B"]] ∧
    docC5.length = 2 ∧ (["B"] : List String).length ≠ 2 := by
  refine ⟨?_, ?_, ?_, rfl, by decide⟩
  · norm_num [parse_tree, foldE, tree_level_step, parse_branchinglevel,
      level_step, parse_branchset, parse_branches, branch_loop_step,
      apply_branchset, apply_to_step, childLookup, childSet, unitHooks,
      docC5, bsnC5a, bsnC5b, initConstrState, stC5]
    rw [if_neg (show ¬ ("B" : String) = "A" from by decide)]
    norm_num [apply_to_step, childLookup, childSet, stC5, bsnC5b]
    rw [if_neg (show ¬ (("C" : String) = "A" ∨ ("C" : String) = "B")
      from by decide)]
    norm_num [stC5, bsnC5a, bsnC5b]
    rw [if_neg (show ¬ (some 0 = (none : Option Nat)) from by decide)]
  · norm_num [extractTree, buildTree, buildBranches, childLookup,
      stC5, bsnC5a, bsnC5b, treeC5]
    rw [if_neg (show ¬ ("A" : String) = "B" from by decide)]
    norm_num [buildBranches, childLookup, treeC5]
    rw [if_neg (show ¬ ("A" : String) = "C" from by decide)]
  · norm_num [treeC5, BranchSet.enumerate_paths, enumBranchList, enumBranch]

/-- C5 (amended): for documents where every branching level holds exactly
one branchset and no branchset uses `applyToBranches` — so each level
attaches to every open end — every enumerated path and every sampled path
of the constructed tree has exactly one branch per branching level. -/
theorem path_length_eq_levels_of_chain {σ : Type} {hooks : Hooks σ}
    {validate : Bool} (hskip : ∀ b, hooks.skip_branchset_condition b = false)
    (b0 : BranchSetNode) (l : List BranchSetNode) {vst0 vst : σ}
    {st : ConstrState}
    (happ : ∀ b ∈ b0 :: l, b.apply_to_branches = none)
    (h : parse_tree hooks validate vst0 ((b0 :: l).map (fun x => [x])) =
      .ok (vst, st)) :
    ∃ t, extractTree st = some t ∧
      (∀ qp ∈ t.enumerate_paths,
        qp.2.length = ((b0 :: l).map (fun x => [x])).length) ∧
      (∀ (draws : Nat → ℚ) (i : Nat) (p : List String) (j : Nat),
        BranchSet.sample_walk draws t i = some (p, j) →
        p.length = ((b0 :: l).map (fun x => [x])).length) := by
  obtain ⟨hst, hnd⟩ := parse_tree_chain hskip happ h
  subst hst
  refine ⟨chain_tree b0 l, extractTree_chain b0 l hnd, ?_, ?_⟩
  · intro qp hqp
    have hl := chain_tree_enum_length l b0 qp hqp
    simp [hl]
  · intro draws i p j hw
    have hl := chain_tree_sample_length l b0 draws i p j hw
    simp [hl]

def bsnW1 : BranchSetNode :=
  { uncertainty_type := "sourceModel", filters := [], apply_to_branches := none
  , branches := [ { branch_id := "A", weight := 1, value := "sA" } ] }

def bsnW2 : BranchSetNode :=
  { uncertainty_type := "maxMagGRRelative", filters := []
  , apply_to_branches := none
  , branches := [ { branch_id := "B", weight := 1, value := "0.2" } ] }

def stW12 : ConstrState :=
  { branchIds := ["A", "B"], bsets := [bsnW1, bsnW2], root := some 0
  , child := [("A", 1)], open_ends := ["B"] }

theorem path_length_eq_levels_of_chain_witness :
    parse_tree unitHooks false ()
      ((bsnW1 :: [bsnW2]).map (fun x => [x])) = .ok ((), stW12) ∧
    ∃ t, extractTree stW12 = some t ∧
      (∀ qp ∈ t.enumerate_paths, qp.2.length = 2) ∧
      (∀ (draws : Nat → ℚ) (i : Nat) (p : List String) (j : Nat),
        BranchSet.sample_walk draws t i = some (p, j) → p.length = 2) := by
  have hp : parse_tree unitHooks false ()
      ((bsnW1 :: [bsnW2]).map (fun x => [x])) = .ok ((), stW12) := by
    norm_num [parse_tree, foldE, tree_level_step, parse_branchinglevel,
      level_step, parse_branchset, parse_branches, branch_loop_step,
      apply_branchset, childLookup, childSet, unitHooks,
      bsnW1, bsnW2, initConstrState, stW12, List.map]
    rw [if_neg (show ¬ ("B" : String) = "A" from by decide)]
    norm_num [stW12, bsnW1, bsnW2]
    rw [if_neg (show ¬ (some 0 = (none : Option Nat)) from by decide)]
  refine ⟨hp, ?_⟩
  obtain ⟨t, ht, he, hs⟩ := path_length_eq_levels_of_chain
    (fun _ => rfl) bsnW1 [bsnW2] (by simp [bsnW1, bsnW2]) hp
  exact ⟨t, ht, fun qp hqp => by simpa using he qp hqp,
    fun draws i p j hw => by simpa using hs draws i p j hw⟩

/-! ## C8: iteration order of the flat GSIM tree -/

def gb2 : GBranch :=
  { bsetIdx := 0, bsetID := "bs2", fkey := "T2", id := "x2"
  , uncertainty := "G2", weight := 1 }

def gb1 : GBranch :=
  { bsetIdx := 1, bsetID := "bs1", fkey := "T1", id := "x1"
  , uncertainty := "G1", weight := 1 }

def blC8 : List GBranch := [gb2, gb1]

theorem gsimBranches_blC8 : gsimBranches blC8 = [gb1, gb2] := by
  have h : btLt gb1 gb2 = true := by
    simp [btLt, gb1, gb2]
    decide
  simp [gsimBranches, pySorted, blC8, insertSorted, h]

/-- The spec says iteration takes the branch groups in order of first
appearance in the document, but `__init__` sorts the branch tuples with
`sorted` under `BranchTuple.__lt__` first: on a document whose two
branchsets appear in descending `branchSetID` order, the realization
paths come out in sorted order, not first-appearance order. -/
theorem gsim_iter_not_first_appearance :
    (gsim_iter (gsimBranches blC8)).map (fun r => r.lt_path) =
      [["x1", "x2"]] ∧
    (specFirstAppearanceIter blC8).map (fun r => r.lt_path) =
      [["x2", "x1"]] ∧
    gsim_iter (gsimBranches blC8) ≠ specFirstAppearanceIter blC8 := by
  have h1 : (gsim_iter (gsimBranches blC8)).map (fun r => r.lt_path) =
      [["x1", "x2"]] := by
    rw [gsimBranches_blC8]
    norm_num [gsim_iter, groupConsec, productGroups, mkGsimRealization,
      gb1, gb2]
  have h2 : (specFirstAppearanceIter blC8).map (fun r => r.lt_path) =
      [["x2", "x1"]] := by
    norm_num [specFirstAppearanceIter, groupConsec, productGroups,
      mkGsimRealization, blC8, gb1, gb2]
  refine ⟨h1, h2, fun heq => ?_⟩
  have hc := congrArg (List.map (fun r => r.lt_path)) heq
  rw [h1, h2] at hc
  exact absurd hc (by decide)

/-- C8 (amended): when the parsed branch tuples contain no inversion for
`BranchTuple.__lt__` — in particular whenever sorting leaves the document
order unchanged — and distinct branchsets carry distinct `branchSetID`s,
iteration is exactly the cartesian product of the per-branchset groups in
first-appearance order, and the number of realizations equals
`get_num_paths`. -/
theorem gsim_iter_product (bl : List GBranch)
    (hinv : List.Pairwise (fun a b => btLt b a = false) bl)
    (hids : ((groupConsec bl).map headBsetID).Nodup) :
    gsim_iter (gsimBranches bl) = specFirstAppearanceIter bl ∧
    (gsim_iter (gsimBranches bl)).length =
      get_num_paths (gsimBranches bl) := by
  have hs : gsimBranches bl = bl := pySorted_eq_self hinv
  constructor
  · rw [hs]
    rfl
  · rw [hs, gsim_iter, List.length_map, productGroups_length,
      get_num_paths_eq_prod bl hids]

theorem gsim_iter_product_witness :
    (List.Pairwise (fun a b => btLt b a = false) [gb1, gb2] ∧
      ((groupConsec [gb1, gb2]).map headBsetID).Nodup) ∧
    (gsim_iter (gsimBranches [gb1, gb2]) =
        specFirstAppearanceIter [gb1, gb2] ∧
      (gsim_iter (gsimBranches [gb1, gb2])).length =
        get_num_paths (gsimBranches [gb1, gb2])) := by
  have hinv : List.Pairwise (fun a b => btLt b a = false) [gb1, gb2] := by
    simp [btLt, gb1, gb2]
    decide
  have hids : ((groupConsec [gb1, gb2]).map headBsetID).Nodup := by
    norm_num [groupConsec, gb1, gb2, headBsetID]
    decide
  exact ⟨⟨hinv, hids⟩, gsim_iter_product [gb1, gb2] hinv hids⟩
